import Mathlib

/-!
Verification of the `aioinflux` serialization module (`aioinflux/serialization.py`).

The module is shallowly embedded: Python strings become `String`/`List Char`,
`str.translate` tables become `Char → Option (List Char)` maps, Python scalar
values that can appear as tag/field values become the inductive `PyVal`,
fallible code returns `Except`, and the pandas-side structures (DataFrames,
query-response series) become explicit structures over lists.  All definitions
are executable.
-/

deriving instance DecidableEq for Except

namespace Aioinflux

/-! ## Escape tables and `str.translate`

Source: `serialization.py` lines 18-21.  `str.maketrans` maps a character to a
replacement string; mapping to the empty string removes the character. -/

/-- `key_escape = str.maketrans({'\\': '\\\\', ',': r'\,', ' ': r'\ ', '=': r'\=', '\n': ''})` -/
def key_escape (c : Char) : Option (List Char) :=
  if c = '\\' then some ['\\', '\\']
  else if c = ',' then some ['\\', ',']
  else if c = ' ' then some ['\\', ' ']
  else if c = '=' then some ['\\', '=']
  else if c = '\n' then some []
  else Option.none

/-- `tag_escape`: same table as `key_escape` (the source defines it separately). -/
def tag_escape (c : Char) : Option (List Char) :=
  if c = '\\' then some ['\\', '\\']
  else if c = ',' then some ['\\', ',']
  else if c = ' ' then some ['\\', ' ']
  else if c = '=' then some ['\\', '=']
  else if c = '\n' then some []
  else Option.none

/-- `str_escape = str.maketrans({'\\': '\\\\', '"': r'\"', '\n': ''})` -/
def str_escape (c : Char) : Option (List Char) :=
  if c = '\\' then some ['\\', '\\']
  else if c = '"' then some ['\\', '"']
  else if c = '\n' then some []
  else Option.none

/-- `measurement_escape = str.maketrans({'\\': '\\\\', ',': r'\,', ' ': r'\ ', '\n': ''})` -/
def measurement_escape (c : Char) : Option (List Char) :=
  if c = '\\' then some ['\\', '\\']
  else if c = ',' then some ['\\', ',']
  else if c = ' ' then some ['\\', ' ']
  else if c = '\n' then some []
  else Option.none

/-- Core of Python's `str.translate`: map each character through the table,
keeping characters the table does not mention. -/
def translateL (t : Char → Option (List Char)) : List Char → List Char
  | [] => []
  | c :: cs => (match t c with | some r => r | Option.none => [c]) ++ translateL t cs

/-- Python's `s.translate(table)` on a genuine `str`. -/
def translate (t : Char → Option (List Char)) (s : String) : String :=
  ⟨translateL t s.data⟩

/-! ## Python scalar values -/

/-- A Python scalar as it can appear as a measurement, tag or field value:
`str`, `int`, `bool`, `None`, or anything else (carried by the text that
`str()` produces for it, e.g. a float's repr). -/
inductive PyVal where
  | str (s : String)
  | int (n : Int)
  | bool (b : Bool)
  | none
  | other (text : String)
deriving DecidableEq, Repr

/-- One decimal digit, as Python renders it (only 0-9 is ever reached). -/
def decDigit (d : Nat) : Char :=
  if d = 0 then '0' else if d = 1 then '1' else if d = 2 then '2'
  else if d = 3 then '3' else if d = 4 then '4' else if d = 5 then '5'
  else if d = 6 then '6' else if d = 7 then '7' else if d = 8 then '8'
  else if d = 9 then '9' else '*'

/-- Decimal digits of a natural number (fuel-based so that the kernel can
evaluate it; `natDigits` supplies sufficient fuel). -/
def natDigitsGo : Nat → Nat → List Char
  | 0, _ => []
  | fuel + 1, n =>
    if n < 10 then [decDigit n]
    else natDigitsGo fuel (n / 10) ++ [decDigit (n % 10)]

/-- Decimal digits of a natural number, as Python's `str` renders them. -/
def natDigits (n : Nat) : List Char :=
  natDigitsGo (n + 1) n

/-- Python's `str(n)` for an `int`. -/
def intRepr : Int → String
  | .ofNat n => ⟨natDigits n⟩
  | .negSucc n => ⟨'-' :: natDigits (n + 1)⟩

/-- Python's `str(v)` for the scalars modelled by `PyVal`. -/
def pyStr : PyVal → String
  | .str s => s
  | .int n => intRepr n
  | .bool b => if b then "True" else "False"
  | .none => "None"
  | .other t => t

/-- `v.translate(table)`: succeeds on a `str`, raises `AttributeError`
(modelled as `Except.error`) on every other value. -/
def translateV (v : PyVal) (t : Char → Option (List Char)) : Except String String :=
  match v with
  | .str s => .ok (translate t s)
  | _ => .error "AttributeError"

/-- `escape(string, escape_pattern)` (source lines 24-31): try to translate;
on `AttributeError` emit a warning (the `Bool` component), convert the value
with `str()` and translate the result with `tag_escape` — note the source
always uses `tag_escape` in the fallback, not the requested pattern. -/
def escape (v : PyVal) (t : Char → Option (List Char)) : Bool × String :=
  match translateV v t with
  | .ok r => (false, r)
  | .error _ => (true, translate tag_escape (pyStr v))

/-! ## Points and the scalar encoder -/

/-- A point mapping as `make_line` consumes it.  `measurement`, `tags` and
`time` model the presence or absence of the corresponding dict keys; `fields`
is the `fields` mapping in insertion order.  `time` carries the nanosecond
value that `pd.Timestamp(dt).value` produces for the supplied time (the
pandas-available code path of `_parse_timestamp`). -/
structure Point where
  measurement : Option PyVal
  tags : Option (List (String × PyVal))
  fields : List (String × PyVal)
  time : Option Int
deriving Repr

/-- Python's `','.join` (and `'\n'.join`, by choice of separator). -/
def joinSep (sep : String) : List String → String
  | [] => ""
  | [x] => x
  | x :: y :: rest => x ++ sep ++ joinSep sep (y :: rest)

/-- Lookup in a Python dict modelled as an association list. -/
def dictGet (k : String) : List (String × PyVal) → Option PyVal
  | [] => Option.none
  | kv :: rest => if kv.1 = k then some kv.2 else dictGet k rest

/-- `{**a, **b}`: keys of `a` in order (values overridden by `b`), then the
keys of `b` not present in `a`, in the order of `b`. -/
def mergeDicts (a b : List (String × PyVal)) : List (String × PyVal) :=
  a.map (fun kv => (kv.1, (dictGet kv.1 b).getD kv.2))
    ++ b.filter (fun kv => (dictGet kv.1 a).isNone)

/-- `_parse_tags` (source lines 74-88): merge the point's tags with
`extra_tags`, escape keys and values, skip tags whose escaped value is empty,
join with commas.  A point without a `'tags'` key raises `KeyError` before
the loop body ever runs; the `except KeyError: pass` turns that into an empty
tag segment, dropping `extra_tags` as well. -/
def tagStep (acc : List String) (kv : String × PyVal) : List String :=
  let k := (escape (.str kv.1) key_escape).2
  let v := (escape kv.2 tag_escape).2
  if v = "" then acc else acc ++ [k ++ "=" ++ v]

def _parse_tags (point : Point) (extra_tags : List (String × PyVal)) : String :=
  match point.tags with
  | Option.none => ""
  | some ptags => joinSep "," ((mergeDicts ptags extra_tags).foldl tagStep [])

/-- `_parse_fields` (source lines 107-124): render each field by runtime type
(`bool` before `int`, as in the source, since Python's `bool` is an `int`),
skipping `None` values; join with commas. -/
def fieldStep (acc : List String) (kv : String × PyVal) : List String :=
  let k := (escape (.str kv.1) key_escape).2
  match kv.2 with
  | .bool b => acc ++ [k ++ "=" ++ pyStr (.bool b)]
  | .int n => acc ++ [k ++ "=" ++ pyStr (.int n) ++ "i"]
  | .str s => acc ++ [k ++ "=\"" ++ translate str_escape s ++ "\""]
  | .none => acc
  | .other t => acc ++ [k ++ "=" ++ pyStr (.other t)]

def _parse_fields (fields : List (String × PyVal)) : String :=
  joinSep "," (fields.foldl fieldStep [])

/-- `_parse_measurement` (source lines 65-71). -/
def _parse_measurement (point : Point) (measurement : Option String) : Except String String :=
  match point.measurement with
  | some v => .ok (escape v measurement_escape).2
  | Option.none =>
    match measurement with
    | Option.none => .error "'measurement' missing"
    | some m => .ok (escape (.str m) measurement_escape).2

/-- `_parse_timestamp` (source lines 91-104), on the pandas-available path:
an absent `'time'` key yields the empty string, otherwise the integer
`pd.Timestamp(dt).value` is rendered into the format slot. -/
def _parse_timestamp (point : Point) : String :=
  match point.time with
  | Option.none => ""
  | some ns => intRepr ns

/-- `make_line` (source lines 52-62): `'{},{} {} {}'` when the tag segment is
nonempty, `'{} {} {}'` otherwise. -/
def make_line (point : Point) (measurement : Option String)
    (extra_tags : List (String × PyVal)) : Except String String :=
  let tags := _parse_tags point extra_tags
  match _parse_measurement point measurement with
  | .error e => .error e
  | .ok m =>
    if tags ≠ "" then
      .ok (m ++ "," ++ tags ++ " " ++ _parse_fields point.fields ++ " " ++ _parse_timestamp point)
    else
      .ok (m ++ " " ++ _parse_fields point.fields ++ " " ++ _parse_timestamp point)

/-! ## Timezone-naive timestamps (`_parse_timestamp`, no-pandas path)

A timezone-naive datetime is modelled by the epoch second count its wall-clock
reading denotes when interpreted as UTC, plus its microsecond component.  The
timezone environment records the local UTC offset actually in effect at that
instant (DST included) and the standard offset (`time.timezone` is the
standard offset west of UTC, i.e. the negation of `stdOffsetEast`). -/

structure NaiveDatetime where
  sec : Int
  usec : Int
deriving DecidableEq, Repr

structure TzEnv where
  offsetEast : Int
  stdOffsetEast : Int
deriving DecidableEq, Repr

/-- Nanoseconds emitted on the pandas path for a tz-naive time:
`pd.Timestamp(dt).value` reads the wall clock as UTC. -/
def pandas_naive_ns (dt : NaiveDatetime) : Int :=
  dt.sec * 10 ^ 9 + dt.usec * 1000

/-- Nanoseconds emitted on the no-pandas (ciso8601) path for a tz-naive time
(source line 103): `int(dt.timestamp() - time.timezone) * 10**9 +
dt.microsecond * 1000`.  A naive `dt.timestamp()` reads the wall clock in
local time, i.e. `sec - offsetEast` seconds (plus the microsecond fraction,
which `int()` truncates away), and `time.timezone = -stdOffsetEast`. -/
def ciso_naive_ns (dt : NaiveDatetime) (env : TzEnv) : Int :=
  (dt.sec - env.offsetEast - (- env.stdOffsetEast)) * 10 ^ 9 + dt.usec * 1000

/-- Modelled from the spec: "if timezone-naive, assume UTC (do not apply local
offset)" — the nanosecond count of the wall-clock reading interpreted as UTC. -/
def spec_utc_ns (dt : NaiveDatetime) : Int :=
  dt.sec * 10 ^ 9 + dt.usec * 1000

/-! ## Spec-side renderings of the scalar encoder (for refinement claims) -/

/-- One field token as the (amended) spec describes it: boolean bare as
`True`/`False`, integer with a trailing `i`, text double-quoted under the
field-string profile, null omitted, anything else bare. -/
def specFieldToken (kv : String × PyVal) : Option String :=
  let k := translate key_escape kv.1
  match kv.2 with
  | .bool b => some (k ++ "=" ++ (if b then "True" else "False"))
  | .int n => some (k ++ "=" ++ intRepr n ++ "i")
  | .str s => some (k ++ "=\"" ++ translate str_escape s ++ "\"")
  | .none => Option.none
  | .other t => some (k ++ "=" ++ t)

/-- One tag token as the (amended) spec describes it: key under the key
profile, value coerced to text if needed and escaped under the tag profile;
the tag is dropped exactly when the escaped value is the empty string. -/
def specTagToken (kv : String × PyVal) : Option String :=
  let k := translate key_escape kv.1
  let v := match kv.2 with
    | .str s => translate tag_escape s
    | w => translate tag_escape (pyStr w)
  if v = "" then Option.none else some (k ++ "=" ++ v)

/-- The line `make_line` would produce if it omitted the timestamp format slot
altogether (spec-side shape for the amended C3). -/
def lineNoTimestamp (point : Point) (measurement : Option String)
    (extra_tags : List (String × PyVal)) : Except String String :=
  let tags := _parse_tags point extra_tags
  match _parse_measurement point measurement with
  | .error e => .error e
  | .ok m =>
    if tags ≠ "" then .ok (m ++ "," ++ tags ++ " " ++ _parse_fields point.fields)
    else .ok (m ++ " " ++ _parse_fields point.fields)

/-! ## The response decoder (`make_df`, source lines 130-178)

A JSON query response is a list of statements, each optionally carrying a
list of series; a series has a name, an optional tags mapping, a column list
and a list of value rows.  DataFrames become `Table`s: an optional temporal
index (`some` models a `DatetimeIndex` with the listed nanosecond values,
`none` any non-datetime index such as the default positional index), the
column names, the cell rows, and the categorical-dtype registrations that the
tag-cache post-processing step makes. -/

/-- A cell of a response `values` row: integers (which `pd.to_datetime`
reads as epoch nanoseconds when in the `time` column), text, booleans, or
null. -/
inductive Cell where
  | i (n : Int)
  | s (t : String)
  | b (x : Bool)
  | null
deriving DecidableEq, Repr

structure InfluxSeries where
  name : String
  tags : Option (List (String × String))
  columns : List String
  values : List (List Cell)
deriving DecidableEq, Repr

/-- One entry of `resp['results']`; `series = none` models a statement
without a `'series'` key. -/
structure Statement where
  series : Option (List InfluxSeries)
deriving DecidableEq, Repr

structure Table where
  index : Option (List Int)
  columns : List String
  rows : List (List Cell)
  cats : List (String × List String)
deriving DecidableEq, Repr

/-- The identity key `(series['name'], tuple(series.get('tags', {}).items()))`
(source line 153): the tag items in mapping iteration order, not sorted. -/
abbrev SeriesKey := String × List (String × String)

def seriesKey (s : InfluxSeries) : SeriesKey := (s.name, s.tags.getD [])

/-- `pd.to_datetime` on a cell destined for the temporal index: integer cells
are epoch nanoseconds; other cell shapes are outside the model. -/
def cellNs : Cell → Option Int
  | .i n => some n
  | _ => Option.none

/-- The per-row reshaping `maker` performs when `time` is a column: drop the
time cell and append the series tags as constant columns. -/
def rowTransform (s : InfluxSeries) (row : List Cell) : List Cell :=
  if "time" ∈ s.columns then
    row.eraseIdx (s.columns.findIdx (· == "time"))
      ++ (s.tags.getD []).map (fun kv => Cell.s kv.2)
  else row

/-- `maker` (source lines 133-145): build a frame from `values`/`columns`;
when `time` is absent return it as-is (positional index, no tag columns);
otherwise take the time column as UTC `DatetimeIndex`, drop it from the data
and materialize the series tags as constant columns. -/
def maker (s : InfluxSeries) : Option Table :=
  if "time" ∈ s.columns then
    match s.values.mapM (fun row => (row.get? (s.columns.findIdx (· == "time"))).bind cellNs) with
    | Option.none => Option.none
    | some idx =>
      some { index := some idx
             columns := s.columns.eraseIdx (s.columns.findIdx (· == "time"))
               ++ (s.tags.getD []).map (fun kv => kv.1)
             rows := s.values.map (rowTransform s)
             cats := [] }
  else
    some { index := Option.none, columns := s.columns, rows := s.values, cats := [] }

/-- The flat series list
`[series for statement in resp if 'series' in statement for series in statement['series']]`. -/
def allSeries (resp : List Statement) : List InfluxSeries :=
  (resp.filterMap Statement.series).flatten

/-! Python's comparison order on the identity keys (`sorted(df_list,
key=lambda x: x[0])`): strings compare by code point, tuples and the
tag-item lists lexicographically. -/

/-- Code-point comparison of characters, as Python compares strings. -/
def charLtB (a b : Char) : Bool := decide (a.toNat < b.toNat)

/-- Lexicographic order on lists (Python sequence comparison: first differing
element decides; a proper prefix is smaller). -/
def lexLtB {α : Type} [DecidableEq α] (lt : α → α → Bool) : List α → List α → Bool
  | [], [] => false
  | [], _ :: _ => true
  | _ :: _, [] => false
  | a :: as, b :: bs => if lt a b then true else if a = b then lexLtB lt as bs else false

/-- Lexicographic order on pairs (Python tuple comparison). -/
def pairLexLtB {α β : Type} [BEq α] (la : α → α → Bool) (lb : β → β → Bool)
    (x y : α × β) : Bool :=
  la x.1 y.1 || (x.1 == y.1 && lb x.2 y.2)

def strLtB (a b : String) : Bool := lexLtB charLtB a.data b.data

def tagPairLtB : String × String → String × String → Bool := pairLexLtB strLtB strLtB

def tagsLtB : List (String × String) → List (String × String) → Bool := lexLtB tagPairLtB

def keyLtB : SeriesKey → SeriesKey → Bool := pairLexLtB strLtB tagsLtB

/-- `a` sorts no later than `b` (Python's stable `sorted` keeps `a` before
`b` exactly when `not (b < a)`). -/
def keyLeB (a b : SeriesKey) : Bool := !(keyLtB b a)

def insertSorted (x : SeriesKey × Table) :
    List (SeriesKey × Table) → List (SeriesKey × Table)
  | [] => [x]
  | y :: ys => if keyLeB x.1 y.1 then x :: y :: ys else y :: insertSorted x ys

/-- The stable ascending sort `sorted(df_list, key=lambda x: x[0])`. -/
def sortByKey : List (SeriesKey × Table) → List (SeriesKey × Table)
  | [] => []
  | x :: xs => insertSorted x (sortByKey xs)

/-- One step of the `defaultdict(list)` accumulation: append to the existing
entry for the key, or append a fresh entry at the end. -/
def addToGroup (acc : List (SeriesKey × List Table)) (k : SeriesKey) (t : Table) :
    List (SeriesKey × List Table) :=
  match acc with
  | [] => [(k, [t])]
  | kv :: rest => if kv.1 = k then (kv.1, kv.2 ++ [t]) :: rest else kv :: addToGroup rest k t

def groupPairs (l : List (SeriesKey × Table)) : List (SeriesKey × List Table) :=
  l.foldl (fun acc kt => addToGroup acc kt.1 kt.2) []

/-- `pd.concat(v, axis=0)` on a nonempty table list: rows concatenate in
order; the result's index is a `DatetimeIndex` only if every part's is. -/
def concatTables : List Table → Table
  | [] => { index := Option.none, columns := [], rows := [], cats := [] }
  | [t] => t
  | t :: t2 :: ts =>
    let r := concatTables (t2 :: ts)
    { index := match t.index, r.index with
        | some a, some b => some (a ++ b)
        | _, _ => Option.none
      columns := t.columns
      rows := t.rows ++ r.rows
      cats := [] }

/-- `drop_zero_index` (source lines 147-150): a `DatetimeIndex` consisting
entirely of the zero epoch is discarded in favour of a positional index. -/
def drop_zero_index (t : Table) : Table :=
  match t.index with
  | some l => if l.all (· == 0) then { t with index := Option.none } else t
  | Option.none => t

/-- The tag cache: measurement name → column → ordered category set. -/
abbrev TagCache := List (String × List (String × List String))

def lookupName (n : String) : TagCache → Option (List (String × List String))
  | [] => Option.none
  | kv :: rest => if kv.1 = n then some kv.2 else lookupName n rest

/-- The categorical post-processing (source lines 166-173): with a truthy
cache holding this series name, matching columns are re-typed with the cached
category set. -/
def applyCats (cache : TagCache) (k : SeriesKey) (t : Table) : Table :=
  if cache.isEmpty then t
  else
    match lookupName k.1 cache with
    | Option.none => t
    | some colCats => { t with cats := colCats.filter (fun cc => cc.1 ∈ t.columns) }

/-- The "Parsing" and "Concatenation" stages of `make_df` (source lines
152-161): sort the keyed tables by identity key (Python's `sorted` is
stable), group them `defaultdict`-style and concatenate each group. -/
def make_df_tables (df_list : List (SeriesKey × Table)) : List (SeriesKey × Table) :=
  (groupPairs (sortByKey df_list)).map (fun kv => (kv.1, concatTables kv.2))

/-- `make_df` (source lines 130-178) up to the final single-table unwrap: the
dict mapping each identity key to its concatenated, post-processed table, in
the order the keys enter the dict. -/
def make_df (resp : List Statement) (tag_cache : TagCache) :
    Option (List (SeriesKey × Table)) :=
  match (allSeries resp).mapM (fun s => (maker s).map (fun t => (seriesKey s, t))) with
  | Option.none => Option.none
  | some df_list =>
    some ((make_df_tables df_list).map
      (fun kv => (kv.1, applyCats tag_cache kv.1 (drop_zero_index kv.2))))

/-- Association-list lookup used to state properties of the returned dict. -/
def alookup {α : Type} (k : SeriesKey) : List (SeriesKey × α) → Option α
  | [] => Option.none
  | kv :: rest => if kv.1 = k then some kv.2 else alookup k rest

/-- Insertion sort of tag items, used only to express the spec's claimed
"sorted tags-as-tuple" identity. -/
def insertTagSorted (x : String × String) : List (String × String) → List (String × String)
  | [] => [x]
  | y :: ys => if !(tagPairLtB y x) then x :: y :: ys else y :: insertTagSorted x ys

def sortTags : List (String × String) → List (String × String)
  | [] => []
  | x :: xs => insertTagSorted x (sortTags xs)

/-- Modelled from the spec: the identity key as the spec words it —
"(name, sorted tags-as-tuple)". -/
def specSortedKey (s : InfluxSeries) : SeriesKey :=
  (s.name, sortTags (s.tags.getD []))

/-! Concrete decoder inputs used by the decoder witnesses: a response whose
series `(m, {h: a})` arrives in two chunks (two and one rows) with a
statement without series in between, plus a `SHOW`-style series `b` whose
time column is entirely the zero epoch. -/

def exResp : List Statement :=
  [⟨some [⟨"m", some [("h", "a")], ["time", "v"], [[.i 5, .i 50], [.i 6, .i 60]]⟩]⟩,
   ⟨Option.none⟩,
   ⟨some [⟨"b", Option.none, ["time", "v"], [[.i 0, .i 1], [.i 0, .i 2]]⟩,
          ⟨"m", some [("h", "a")], ["time", "v"], [[.i 7, .i 70]]⟩]⟩]

/-- The keyed per-chunk tables of `exResp` (what the "Parsing" stage yields). -/
def exPairs : List (SeriesKey × Table) :=
  [(("m", [("h", "a")]),
    ⟨some [5, 6], ["v", "h"], [[.i 50, .s "a"], [.i 60, .s "a"]], []⟩),
   (("b", []), ⟨some [0, 0], ["v"], [[.i 1], [.i 2]], []⟩),
   (("m", [("h", "a")]), ⟨some [7], ["v", "h"], [[.i 70, .s "a"]], []⟩)]

/-- The decoded dict for `exResp`. -/
def exOut : List (SeriesKey × Table) :=
  [(("b", []), ⟨Option.none, ["v"], [[.i 1], [.i 2]], []⟩),
   (("m", [("h", "a")]),
    ⟨some [5, 6, 7], ["v", "h"],
     [[.i 50, .s "a"], [.i 60, .s "a"], [.i 70, .s "a"]], []⟩)]

/-! ## The tabular encoder (`parse_df`, source lines 189-249)

A DataFrame becomes a `Frame`: a flag recording whether its index is a
genuine `DatetimeIndex`, the ordered typed columns, and the rows, each row
carrying its index entry's nanosecond value and its cells.  A non-null cell
carries the text that `str()` renders into the format slot for its value; a
null cell is `np.nan`, which renders as `nan`. -/

/-- The column dtypes the encoder distinguishes: `np.integer` subclasses,
`np.float`/`np.bool_` subclasses, the `object` dtype `np.dtype('O')`, and
pandas' `CategoricalDtype`. -/
inductive Dtype where
  | int
  | floatbool
  | object
  | categorical
deriving DecidableEq, Repr

structure FrameCol where
  name : String
  dtype : Dtype
deriving DecidableEq, Repr

inductive FCell where
  | v (text : String)
  | null
deriving DecidableEq, Repr

structure FrameRow where
  ts : Int
  cells : List FCell
deriving DecidableEq, Repr

structure Frame where
  isDatetimeIndex : Bool
  columns : List FrameCol
  rows : List FrameRow
deriving DecidableEq, Repr

/-- What `str()` renders into a format slot for a cell (`str(np.nan) = 'nan'`). -/
def renderCell : FCell → String
  | .v t => t
  | .null => "nan"

/-- The effective tag-column name set: the explicit `tag_columns` plus the
(raw) names of categorical columns (source lines 208-210). -/
def tagNameSet (df : Frame) (tag_columns : List String) : List String :=
  tag_columns ++ (df.columns.filter (fun c => c.dtype = Dtype.categorical)).map
    (fun c => c.name)

/-- Whether a column renders as a tag: the source tests the translated key
`k.translate(key_escape)` against the raw-name tag set (line 219-220). -/
def colIsTag (df : Frame) (tag_columns : List String) (c : FrameCol) : Bool :=
  translate key_escape c.name ∈ tagNameSet df tag_columns

/-- Constant tag tokens for the `extra_tags` kwargs (line 216-217): raw key,
double-quoted key-escaped value. -/
def extraTagTokens (extra_tags : List (String × PyVal)) : List String :=
  extra_tags.map (fun kv => kv.1 ++ "=\"" ++ (escape kv.2 key_escape).2 ++ "\"")

/-- A per-row tag-column token: translated key, bare cell text. -/
def tagColTokens (df : Frame) (tag_columns : List String) (r : FrameRow) : List String :=
  ((df.columns.zip r.cells).filter (fun p => colIsTag df tag_columns p.1)).map
    (fun p => translate key_escape p.1.name ++ "=" ++ renderCell p.2)

/-- A per-row field-column token, by dtype (lines 222-231): integer with `i`
suffix, float/bool bare, anything else double-quoted without escaping. -/
def fieldColToken (c : FrameCol) (cell : FCell) : String :=
  let k := translate key_escape c.name
  match c.dtype with
  | Dtype.int => k ++ "=" ++ renderCell cell ++ "i"
  | Dtype.floatbool => k ++ "=" ++ renderCell cell
  | _ => k ++ "=\"" ++ renderCell cell ++ "\""

def fieldColTokens (df : Frame) (tag_columns : List String) (r : FrameRow) : List String :=
  ((df.columns.zip r.cells).filter (fun p => ¬ colIsTag df tag_columns p.1)).map
    (fun p => fieldColToken p.1 p.2)

/-- The composite row renderer `f` that `parse_df` builds once per table
(lines 232-239): `fmt_0 ++ ' ' ++ fmt_1 ++ ' ' ++ p[0].value`, where the
leading comma after the measurement appears iff the tag spec list is
nonempty. -/
def renderRow (df : Frame) (measurement : String) (tag_columns : List String)
    (extra_tags : List (String × PyVal)) (r : FrameRow) : String :=
  measurement
    ++ (if extra_tags ≠ [] ∨ df.columns.any (colIsTag df tag_columns) then "," else "")
    ++ joinSep "," (extraTagTokens extra_tags ++ tagColTokens df tag_columns r)
    ++ " " ++ joinSep "," (fieldColTokens df tag_columns r)
    ++ " " ++ intRepr r.ts

/-- `df.isnull().any(axis=1)` for one row. -/
def isnullRow (r : FrameRow) : Bool :=
  r.cells.any (fun c => c == FCell.null)

/-- The literal alternation built by `make_replacements` (lines 189-199):
object-dtype columns contribute `k="nan"`, every other column `k=nan`, with
the raw (untranslated) column names. -/
def nanPats (df : Frame) : List (List Char) :=
  ((df.columns.filter (fun c => c.dtype = Dtype.object)).map
    (fun c => (c.name ++ "=\"nan\"").data)) ++
  ((df.columns.filter (fun c => ¬ c.dtype = Dtype.object)).map
    (fun c => (c.name ++ "=nan").data))

/-- Match a literal pattern against the start of the text, returning the
remainder on success. -/
def matchPat : List Char → List Char → Option (List Char)
  | [], rest => some rest
  | _ :: _, [] => Option.none
  | p :: ps, c :: cs => if p = c then matchPat ps cs else Option.none

/-- First (nonempty) alternative matching at this position, as Python's `re`
tries alternatives left to right. -/
def firstPat (pats : List (List Char)) (cs : List Char) : Option (List Char) :=
  match pats with
  | [] => Option.none
  | p :: rest =>
    if p = [] then firstPat rest cs
    else
      match matchPat p cs with
      | some r => some r
      | Option.none => firstPat rest cs

/-- `re.sub` with an alternation of literal patterns: scan left to right,
replace each leftmost nonoverlapping match, never rescanning the replacement.
Fuel-based so the kernel can evaluate it; one character (at least) is
consumed per step, so `length` fuel always suffices and exhausted fuel is
unreachable from `subst`. -/
def substGo (pats : List (List Char)) (repl : List Char) : Nat → List Char → List Char
  | 0, _ => []
  | _ + 1, [] => []
  | fuel + 1, c :: cs =>
    match firstPat pats (c :: cs) with
    | some rest => repl ++ substGo pats repl fuel rest
    | Option.none => c :: substGo pats repl fuel cs

def subst (pats : List (List Char)) (repl : List Char) (cs : List Char) : List Char :=
  substGo pats repl cs.length cs

/-- `re.sub(',{2,}', ',', s)`: each maximal run of two or more commas
collapses to one (fuel-based, as above). -/
def collapseGo : Nat → List Char → List Char
  | 0, _ => []
  | _ + 1, [] => []
  | fuel + 1, c :: cs =>
    if c = ',' then
      match cs with
      | c2 :: rest =>
        if c2 = ',' then ',' :: collapseGo fuel (rest.dropWhile (fun x => x == ','))
        else c :: collapseGo fuel cs
      | [] => c :: collapseGo fuel cs
    else c :: collapseGo fuel cs

def collapseCommas (cs : List Char) : List Char :=
  collapseGo cs.length cs

/-- `re.sub(', ,|, | ,', ' ', s)`: the three alternatives tried in order at
each position, replaced by one space (fuel-based, as above). -/
def subSpaceGo : Nat → List Char → List Char
  | 0, _ => []
  | _ + 1, [] => []
  | fuel + 1, c :: cs =>
    if c = ',' then
      match cs with
      | c2 :: cs2 =>
        if c2 = ' ' then
          match cs2 with
          | c3 :: rest =>
            if c3 = ',' then ' ' :: subSpaceGo fuel rest
            else ' ' :: subSpaceGo fuel (c3 :: rest)
          | [] => ' ' :: subSpaceGo fuel []
        else c :: subSpaceGo fuel cs
      | [] => c :: subSpaceGo fuel cs
    else if c = ' ' then
      match cs with
      | c2 :: rest =>
        if c2 = ',' then ' ' :: subSpaceGo fuel rest
        else c :: subSpaceGo fuel cs
      | [] => c :: subSpaceGo fuel cs
    else c :: subSpaceGo fuel cs

def subSpace (cs : List Char) : List Char :=
  subSpaceGo cs.length cs

/-- The three `re.sub` replacements applied in order to a has-null row's
rendered line (lines 194-198 and 245-246). -/
def applyReplacements (df : Frame) (line : String) : String :=
  ⟨subSpace (collapseCommas (subst (nanPats df) [] line.data))⟩

/-- `parse_df` (source lines 202-249): reject non-temporal indexes, render
the clean rows directly, render the has-null rows and post-process them with
the replacements, and join everything with newlines (clean rows first, as
`chain(lp, lp_nan)` does). -/
def parse_df (df : Frame) (measurement : String) (tag_columns : List String)
    (extra_tags : List (String × PyVal)) : Except String String :=
  if ¬ df.isDatetimeIndex then .error "DataFrame index is not DatetimeIndex"
  else if df.rows.any isnullRow then
    .ok (joinSep "\n"
      ((df.rows.filter (fun r => ¬ isnullRow r)).map
          (renderRow df measurement tag_columns extra_tags)
        ++ (df.rows.filter isnullRow).map
          (fun r => applyReplacements df (renderRow df measurement tag_columns extra_tags r))))
  else
    .ok (joinSep "\n" (df.rows.map (renderRow df measurement tag_columns extra_tags)))

/-! ## The dispatch encoder (`parse_data`, source lines 34-49) -/

/-- The input shapes `parse_data` distinguishes, in the classification the
`isinstance` chain computes: raw bytes, text, a DataFrame, a mapping, any
other iterable, or anything else. -/
inductive PyData where
  | bytes (s : String)
  | str (s : String)
  | frame (df : Frame)
  | dict (p : Point)
  | iter (l : List PyData)
  | other
deriving Repr

/-- Python's `hasattr(data, '__iter__')`: bytes, str, DataFrames, dicts and
iterables all support iteration; only the opaque "anything else" shape does
not.  The source's ordered `isinstance` chain matches bytes/str/frame/dict
before reaching the `__iter__` test, which is why those shapes are not
encoded element-wise even though they are iterable. -/
def hasIter : PyData → Bool
  | .bytes _ => true
  | .str _ => true
  | .frame _ => true
  | .dict _ => true
  | .iter _ => true
  | .other => false

/-- The errors `parse_data` and its callees raise (all `ValueError`s in the
source, with distinct messages). -/
inductive PyErr where
  | missingMeasurementFrame
  | measurementMissingPoint
  | invalidInput
deriving DecidableEq, Repr

mutual

/-- `parse_data` (source lines 34-49), with pandas available.  Output bytes
are modelled as the decoded text. -/
def parse_data (data : PyData) (measurement : Option String)
    (tag_columns : List String) (extra_tags : List (String × PyVal)) :
    Except PyErr String :=
  match data with
  | .bytes s => .ok s
  | .str s => .ok s
  | .frame df =>
    match measurement with
    | Option.none => .error .missingMeasurementFrame
    | some m =>
      match parse_df df m tag_columns extra_tags with
      | .error _ => .error .invalidInput
      | .ok out => .ok out
  | .dict p =>
    match make_line p measurement extra_tags with
    | .error _ => .error .measurementMissingPoint
    | .ok line => .ok line
  | .iter l =>
    match parse_many l measurement tag_columns extra_tags with
    | .error e => .error e
    | .ok parts => .ok (joinSep "\n" parts)
  | .other => .error .invalidInput
termination_by sizeOf data

/-- The list comprehension `[parse_data(i, measurement, tag_columns,
**extra_tags) for i in data]`: elements encoded left to right, the first
raised error propagating. -/
def parse_many (l : List PyData) (measurement : Option String)
    (tag_columns : List String) (extra_tags : List (String × PyVal)) :
    Except PyErr (List String) :=
  match l with
  | [] => .ok []
  | d :: rest =>
    match parse_data d measurement tag_columns extra_tags with
    | .error e => .error e
    | .ok s =>
      match parse_many rest measurement tag_columns extra_tags with
      | .error e => .error e
      | .ok ss => .ok (s :: ss)
termination_by sizeOf l

end

/-! ## Predicates and helpers used to state the tabular-encoder claims -/

/-- A character that is neither a comma, a space nor a newline. -/
abbrev CleanChar (c : Char) : Prop := c ≠ ',' ∧ c ≠ ' ' ∧ c ≠ '\n'

abbrev CleanStr (s : String) : Prop := ∀ c ∈ s.data, CleanChar c

/-- A well-behaved tabular input: rectangular rows, and measurement, column
names, extra-tag keys and escaped values, and rendered cell texts all free of
commas, spaces and newlines. -/
abbrev CleanFrame (df : Frame) (measurement : String)
    (extra_tags : List (String × PyVal)) : Prop :=
  CleanStr measurement ∧
  (∀ c ∈ df.columns, CleanStr c.name) ∧
  (∀ kv ∈ extra_tags, CleanStr kv.1 ∧ CleanStr (escape kv.2 key_escape).2) ∧
  (∀ r ∈ df.rows, r.cells.length = df.columns.length ∧
    ∀ cell ∈ r.cells, CleanStr (renderCell cell))

/-- A line-protocol token: nonempty, free of commas and spaces and newlines. -/
abbrev TokOk (t : String) : Prop := t.data ≠ [] ∧ ∀ c ∈ t.data, CleanChar c

/-- An adjacent pair of characters that is not a dangling delimiter: no two
commas, and no comma next to a space. -/
abbrev goodPair (a b : Char) : Prop :=
  ¬(a = ',' ∧ b = ',') ∧ ¬(a = ',' ∧ b = ' ') ∧ ¬(a = ' ' ∧ b = ',')

/-- No comma-comma adjacency. -/
abbrev noCC (a b : Char) : Prop := ¬(a = ',' ∧ b = ',')

/-- Split a character list at newlines ( `text.split('\n')` ). -/
def splitNl : List Char → List (List Char)
  | [] => [[]]
  | c :: cs =>
    if c = '\n' then [] :: splitNl cs
    else
      match splitNl cs with
      | h :: t => (c :: h) :: t
      | [] => [[c]]

/-- The concrete frame used by the tabular witness: a tag column, a float
column and an object column, with one clean row and two has-null rows. -/
def exFrame : Frame :=
  ⟨true, [⟨"host", Dtype.categorical⟩, ⟨"load", Dtype.floatbool⟩, ⟨"note", Dtype.object⟩],
   [⟨100, [.v "a", .v "1.5", .v "hi"]⟩,
    ⟨200, [.v "b", .null, .v "yo"]⟩,
    ⟨300, [.v "c", .v "2.5", .null]⟩]⟩

end Aioinflux

namespace Aioinflux

/-! ## Helper lemmas: fold steps as filterMaps -/

theorem foldl_fieldStep (l : List (String × PyVal)) :
    ∀ acc : List String, l.foldl fieldStep acc = acc ++ l.filterMap specFieldToken := by
  induction l with
  | nil => intro acc; simp
  | cons kv t ih =>
    intro acc
    obtain ⟨k, v⟩ := kv
    cases v <;>
      simp [List.foldl_cons, ih, fieldStep, specFieldToken, escape, translateV, pyStr]

theorem tagStep_toList (acc : List String) (kv : String × PyVal) :
    tagStep acc kv = acc ++ (specTagToken kv).toList := by
  obtain ⟨k, v⟩ := kv
  cases v <;>
    simp only [tagStep, specTagToken, escape, translateV, pyStr] <;>
    (repeat' split) <;> simp

theorem foldl_tagStep (l : List (String × PyVal)) :
    ∀ acc : List String, l.foldl tagStep acc = acc ++ l.filterMap specTagToken := by
  induction l with
  | nil => intro acc; simp
  | cons kv t ih =>
    intro acc
    rw [List.foldl_cons, tagStep_toList, ih, List.filterMap_cons]
    cases h : specTagToken kv <;> simp [h]

/-! ## Claim theorems: scalar encoder -/

/-- C1 (counterexample): the claim says a boolean field renders as `key=true`
or `key=false`; the code renders Python's `str(bool)`, which is capitalized:
the field mapping `{"b": True}` renders as `b=True`, which is neither
`b=true` nor `b=false`. -/
theorem bool_field_renders_capitalized :
    _parse_fields [("b", .bool true)] = "b=True" ∧
      "b=True" ≠ "b=true" ∧ "b=True" ≠ "b=false" := by
  decide

/-- C1 (amended): each field renders by type in mapping order — boolean bare
and unquoted as `key=True`/`key=False` (Python's capitalized boolean text),
integer as `key=<int>i`, text double-quoted with the field-string escape
profile, null omitted entirely, anything else bare with no suffix — and the
surviving tokens are joined with commas in mapping order. -/
theorem parse_fields_renders_by_type (fields : List (String × PyVal)) :
    _parse_fields fields = joinSep "," (fields.filterMap specFieldToken) := by
  simp [_parse_fields, foldl_fieldStep]

/-- C2 (code bug): on the no-pandas code path, the tz-naive timestamp
2018-07-01T00:00:00 (wall clock read as UTC: epoch second 1530403200)
processed in a locale whose standard offset is UTC+1 with DST (UTC+2) in
effect at that instant is emitted one hour (3.6e12 ns) short of the UTC
interpretation that the code's own comment ("Assume tz-naive input to be in
UTC, not local time") and the spec mandate; the pandas path does emit the
UTC interpretation. -/
theorem ciso_naive_timestamp_diverges_from_utc :
    ciso_naive_ns ⟨1530403200, 0⟩ ⟨7200, 3600⟩ =
        spec_utc_ns ⟨1530403200, 0⟩ - 3600 * 10 ^ 9 ∧
      ciso_naive_ns ⟨1530403200, 0⟩ ⟨7200, 3600⟩ ≠ spec_utc_ns ⟨1530403200, 0⟩ ∧
      pandas_naive_ns ⟨1530403200, 0⟩ = spec_utc_ns ⟨1530403200, 0⟩ := by
  refine ⟨by norm_num [ciso_naive_ns, spec_utc_ns], by norm_num [ciso_naive_ns, spec_utc_ns],
    by norm_num [pandas_naive_ns, spec_utc_ns]⟩

/-- C3 (counterexample): the claim says a point with no time and fields
`{"value": None, "count": 3}` encodes to exactly `m count=3i`; the code's
`'{} {} {}'.format(...)` leaves the empty timestamp slot's separator in
place, producing `m count=3i ` with a trailing space. -/
theorem make_line_no_time_trailing_space :
    make_line ⟨some (.str "m"), Option.none, [("value", PyVal.none), ("count", .int 3)],
        Option.none⟩ Option.none [] = .ok "m count=3i " ∧
      "m count=3i " ≠ "m count=3i" := by
  decide

/-- C3 (amended): for every point with no `time` entry the timestamp segment
contains no digits — the encoded line is exactly the timestampless line
followed by one trailing space (the separator of the empty format slot). -/
theorem make_line_omits_timestamp_digits (p : Point) (m : Option String)
    (e : List (String × PyVal)) (h : p.time = Option.none) :
    make_line p m e = (lineNoTimestamp p m e).map (fun s => s ++ " ") := by
  unfold make_line lineNoTimestamp _parse_timestamp
  rw [h]
  cases _parse_measurement p m with
  | error e => simp [Except.map]
  | ok v => by_cases htag : _parse_tags p e ≠ "" <;> simp [htag, Except.map]

/-- C3 (witness): the amended statement at the claim's own example point. -/
theorem make_line_omits_timestamp_digits_witness :
    make_line ⟨some (.str "m"), Option.none, [("value", PyVal.none), ("count", .int 3)],
        Option.none⟩ Option.none [] = .ok "m count=3i " := by
  rw [make_line_omits_timestamp_digits _ _ _ rfl]
  decide

/-- C4 (counterexample): the claim says a tag whose value is null is omitted;
the code coerces `None` to the text `None` (warning, then `str`), whose
escaped form is nonempty, so the point with tags `{a: None, b: "x"}` encodes
its tag segment as `a=None,b=x`, not `b=x`. -/
theorem null_tag_renders_as_None :
    _parse_tags ⟨Option.none, some [("a", PyVal.none), ("b", .str "x")], [], Option.none⟩ []
        = "a=None,b=x" ∧ "a=None,b=x" ≠ "b=x" := by
  decide

/-- C4 (amended): a tag is omitted exactly when its escaped value is the empty
string (so a tag with value `""` is dropped while other tags are emitted
normally); a null tag value is not omitted — it is coerced to its text
representation `None` and emitted as `key=None`. -/
theorem parse_tags_drops_empty_escaped (p : Point) (ptags extra : List (String × PyVal))
    (h : p.tags = some ptags) :
    _parse_tags p extra = joinSep "," ((mergeDicts ptags extra).filterMap specTagToken) := by
  unfold _parse_tags
  rw [h]
  simp [foldl_tagStep]

/-- C4 (witness): the claim's own example — tags `{a: "", b: "x"}` encode the
tag segment as `b=x`. -/
theorem parse_tags_drops_empty_escaped_witness :
    _parse_tags ⟨Option.none, some [("a", .str ""), ("b", .str "x")], [], Option.none⟩ []
      = "b=x" := by
  rw [parse_tags_drops_empty_escaped _ [("a", .str ""), ("b", .str "x")] [] rfl]
  decide

/-- C9: `escape` accepts any value and never raises: on a `str` it translates
with the requested profile; on any other value the inner `translate` attempt
raises `AttributeError`, which `escape` catches, signalling a non-fatal
warning (the `true` flag), coercing the value with `str()` and escaping the
result, so one malformed scalar degrades gracefully. -/
theorem escape_total_with_warning (v : PyVal) (t : Char → Option (List Char)) :
    (∀ s, v = .str s → translateV v t = .ok (translate t s) ∧
      escape v t = (false, translate t s)) ∧
    ((∀ s, v ≠ .str s) → translateV v t = .error "AttributeError" ∧
      escape v t = (true, translate tag_escape (pyStr v))) := by
  cases v <;> simp [translateV, escape]

/-- C9 (witness): a non-string scalar (`5`) under the key profile warns and
escapes its text representation instead of raising. -/
theorem escape_total_with_warning_witness :
    translateV (.int 5) key_escape = .error "AttributeError" ∧
      escape (.int 5) key_escape = (true, "5") := by
  have h := (escape_total_with_warning (.int 5) key_escape).2 (by intro s; simp)
  exact ⟨h.1, by rw [h.2]; decide⟩

/-- C10: a point mapping without a `'tags'` key produces no tag segment at
all, whatever `extra_tags` are supplied: the `KeyError` raised while reading
`point['tags']` aborts the tag-merge loop, so the extra tags are silently
dropped and the line uses the tagless format. -/
theorem missing_tags_key_drops_extra_tags (p : Point) (m : Option String)
    (e : List (String × PyVal)) (h : p.tags = Option.none) :
    _parse_tags p e = "" ∧
      make_line p m e = (_parse_measurement p m).map
        (fun mm => mm ++ " " ++ _parse_fields p.fields ++ " " ++ _parse_timestamp p) := by
  have htags : _parse_tags p e = "" := by unfold _parse_tags; rw [h]
  refine ⟨htags, ?_⟩
  unfold make_line
  rw [htags]
  cases _parse_measurement p m <;> simp [Except.map]

/-! ## Order properties of the identity-key comparison -/

theorem charLtB_asymm (a b : Char) (h : charLtB a b = true) : charLtB b a = false := by
  simp only [charLtB, decide_eq_true_eq, decide_eq_false_iff_not] at h ⊢
  omega

theorem charLtB_connex (a b : Char) (h1 : charLtB a b = false) (h2 : charLtB b a = false) :
    a = b := by
  simp only [charLtB, decide_eq_false_iff_not] at h1 h2
  have hn : a.toNat = b.toNat := by omega
  exact Char.ext (UInt32.ext hn)

theorem charLtB_trans (a b c : Char) (h1 : charLtB a b = true) (h2 : charLtB b c = true) :
    charLtB a c = true := by
  simp only [charLtB, decide_eq_true_eq] at h1 h2 ⊢
  omega

section LexOrder

variable {α : Type} [DecidableEq α] {lt : α → α → Bool}

theorem lexLtB_asymm (asym : ∀ a b, lt a b = true → lt b a = false) :
    ∀ l1 l2, lexLtB lt l1 l2 = true → lexLtB lt l2 l1 = false := by
  intro l1
  induction l1 with
  | nil => intro l2 h; cases l2 <;> simp_all [lexLtB]
  | cons a as ih =>
    intro l2 h
    cases l2 with
    | nil => simp_all [lexLtB]
    | cons b bs =>
      simp only [lexLtB] at h ⊢
      by_cases hab : lt a b = true
      · have hba := asym a b hab
        by_cases hbeq : b = a
        · subst hbeq; simp_all
        · simp [hba, hbeq]
      · by_cases haeq : a = b
        · subst haeq
          simp only [hab, Bool.false_eq_true, if_false, if_pos rfl] at h ⊢
          exact ih bs h
        · simp only [hab, Bool.false_eq_true, if_false, if_neg haeq] at h

theorem lexLtB_connex (conn : ∀ a b, lt a b = false → lt b a = false → a = b) :
    ∀ l1 l2, lexLtB lt l1 l2 = false → lexLtB lt l2 l1 = false → l1 = l2 := by
  intro l1
  induction l1 with
  | nil => intro l2 h1 h2; cases l2 <;> simp_all [lexLtB]
  | cons a as ih =>
    intro l2 h1 h2
    cases l2 with
    | nil => simp_all [lexLtB]
    | cons b bs =>
      simp only [lexLtB] at h1 h2
      by_cases hab : lt a b = true
      · simp [hab] at h1
      · by_cases hba : lt b a = true
        · simp [hba] at h2
        · have heq : a = b := conn a b (by simpa using hab) (by simpa using hba)
          subst heq
          simp only [hab, Bool.false_eq_true, if_false, if_pos rfl] at h1 h2
          rw [ih bs h1 h2]

theorem lexLtB_trans (tr : ∀ a b c, lt a b = true → lt b c = true → lt a c = true) :
    ∀ l1 l2 l3, lexLtB lt l1 l2 = true → lexLtB lt l2 l3 = true → lexLtB lt l1 l3 = true := by
  intro l1
  induction l1 with
  | nil =>
    intro l2 l3 h1 h2
    cases l2 with
    | nil => simp_all [lexLtB]
    | cons b bs => cases l3 with
      | nil => simp_all [lexLtB]
      | cons c cs => simp [lexLtB]
  | cons a as ih =>
    intro l2 l3 h1 h2
    cases l2 with
    | nil => simp_all [lexLtB]
    | cons b bs =>
      cases l3 with
      | nil => simp_all [lexLtB]
      | cons c cs =>
        simp only [lexLtB] at h1 h2 ⊢
        by_cases hab : lt a b = true
        · by_cases hbc : lt b c = true
          · simp [tr a b c hab hbc]
          · by_cases hbceq : b = c
            · subst hbceq; simp [hab]
            · simp only [hbc, Bool.false_eq_true, if_false, if_neg hbceq] at h2
        · by_cases habeq : a = b
          · subst habeq
            by_cases hbc : lt a c = true
            · simp [hbc]
            · by_cases hbceq : a = c
              · subst hbceq
                simp only [hbc, Bool.false_eq_true, if_false, if_pos rfl] at h1 h2 ⊢
                exact ih _ _ h1 h2
              · simp only [hbc, Bool.false_eq_true, if_false, if_neg hbceq] at h2
          · simp only [hab, Bool.false_eq_true, if_false, if_neg habeq] at h1

end LexOrder

section PairLexOrder

variable {α β : Type} [BEq α] [LawfulBEq α] {la : α → α → Bool} {lb : β → β → Bool}

theorem pairLexLtB_asymm (asymA : ∀ a b, la a b = true → la b a = false)
    (asymB : ∀ a b, lb a b = true → lb b a = false)
    (x y : α × β) (h : pairLexLtB la lb x y = true) : pairLexLtB la lb y x = false := by
  simp only [pairLexLtB, Bool.or_eq_true, Bool.and_eq_true, beq_iff_eq] at h
  simp only [pairLexLtB, Bool.or_eq_false_iff, Bool.and_eq_false_iff]
  rcases h with h | ⟨heq, h⟩
  · refine ⟨asymA _ _ h, Or.inl ?_⟩
    by_cases hba : y.1 = x.1
    · rw [hba] at h; rw [asymA _ _ h] at h; cases h
    · simp [hba]
  · rw [heq]
    refine ⟨?_, Or.inr (asymB _ _ h)⟩
    by_cases hla : la y.1 y.1 = true
    · rw [asymA _ _ hla] at hla; cases hla
    · simpa using hla

theorem pairLexLtB_connex (connA : ∀ a b, la a b = false → la b a = false → a = b)
    (connB : ∀ a b, lb a b = false → lb b a = false → a = b)
    (x y : α × β) (h1 : pairLexLtB la lb x y = false) (h2 : pairLexLtB la lb y x = false) :
    x = y := by
  simp only [pairLexLtB, Bool.or_eq_false_iff, Bool.and_eq_false_iff] at h1 h2
  have heq1 : x.1 = y.1 := connA _ _ h1.1 h2.1
  rcases h1.2 with hb | hlb
  · rw [beq_eq_false_iff_ne] at hb; exact absurd heq1 hb
  · rcases h2.2 with hb | hlb2
    · rw [beq_eq_false_iff_ne] at hb; exact absurd heq1.symm hb
    · have heq2 : x.2 = y.2 := connB _ _ hlb hlb2
      exact Prod.ext heq1 heq2

theorem pairLexLtB_trans (trA : ∀ a b c, la a b = true → la b c = true → la a c = true)
    (trB : ∀ a b c, lb a b = true → lb b c = true → lb a c = true)
    (x y z : α × β) (h1 : pairLexLtB la lb x y = true) (h2 : pairLexLtB la lb y z = true) :
    pairLexLtB la lb x z = true := by
  simp only [pairLexLtB, Bool.or_eq_true, Bool.and_eq_true, beq_iff_eq] at h1 h2 ⊢
  rcases h1 with h1 | ⟨he1, h1⟩
  · rcases h2 with h2 | ⟨he2, h2⟩
    · exact Or.inl (trA _ _ _ h1 h2)
    · rw [he2] at h1; exact Or.inl h1
  · rcases h2 with h2 | ⟨he2, h2⟩
    · rw [he1]; exact Or.inl h2
    · exact Or.inr ⟨he1.trans he2, trB _ _ _ h1 h2⟩

end PairLexOrder

theorem strLtB_asymm (a b : String) (h : strLtB a b = true) : strLtB b a = false :=
  lexLtB_asymm charLtB_asymm _ _ h

theorem strLtB_connex (a b : String) (h1 : strLtB a b = false) (h2 : strLtB b a = false) :
    a = b := by
  have hd : a.data = b.data := lexLtB_connex charLtB_connex _ _ h1 h2
  exact congrArg String.mk hd

theorem strLtB_trans (a b c : String) (h1 : strLtB a b = true) (h2 : strLtB b c = true) :
    strLtB a c = true :=
  lexLtB_trans charLtB_trans _ _ _ h1 h2

theorem tagPairLtB_asymm (a b : String × String) (h : tagPairLtB a b = true) :
    tagPairLtB b a = false :=
  pairLexLtB_asymm strLtB_asymm strLtB_asymm _ _ h

theorem tagPairLtB_connex (a b : String × String) (h1 : tagPairLtB a b = false)
    (h2 : tagPairLtB b a = false) : a = b :=
  pairLexLtB_connex strLtB_connex strLtB_connex _ _ h1 h2

theorem tagPairLtB_trans (a b c : String × String) (h1 : tagPairLtB a b = true)
    (h2 : tagPairLtB b c = true) : tagPairLtB a c = true :=
  pairLexLtB_trans strLtB_trans strLtB_trans _ _ _ h1 h2

theorem tagsLtB_asymm (a b : List (String × String)) (h : tagsLtB a b = true) :
    tagsLtB b a = false :=
  lexLtB_asymm tagPairLtB_asymm _ _ h

theorem tagsLtB_connex (a b : List (String × String)) (h1 : tagsLtB a b = false)
    (h2 : tagsLtB b a = false) : a = b :=
  lexLtB_connex tagPairLtB_connex _ _ h1 h2

theorem tagsLtB_trans (a b c : List (String × String)) (h1 : tagsLtB a b = true)
    (h2 : tagsLtB b c = true) : tagsLtB a c = true :=
  lexLtB_trans tagPairLtB_trans _ _ _ h1 h2

theorem keyLtB_asymm (a b : SeriesKey) (h : keyLtB a b = true) : keyLtB b a = false :=
  pairLexLtB_asymm strLtB_asymm tagsLtB_asymm _ _ h

theorem keyLtB_connex (a b : SeriesKey) (h1 : keyLtB a b = false) (h2 : keyLtB b a = false) :
    a = b :=
  pairLexLtB_connex strLtB_connex tagsLtB_connex _ _ h1 h2

theorem keyLtB_trans (a b c : SeriesKey) (h1 : keyLtB a b = true) (h2 : keyLtB b c = true) :
    keyLtB a c = true :=
  pairLexLtB_trans strLtB_trans tagsLtB_trans _ _ _ h1 h2

theorem keyLtB_irrefl (a : SeriesKey) : keyLtB a a = false := by
  cases h : keyLtB a a with
  | false => rfl
  | true => rw [keyLtB_asymm a a h] at h; cases h

theorem keyLeB_refl (a : SeriesKey) : keyLeB a a = true := by
  simp [keyLeB, keyLtB_irrefl]

theorem keyLeB_total (a b : SeriesKey) : keyLeB a b = true ∨ keyLeB b a = true := by
  cases h : keyLtB b a with
  | false => exact Or.inl (by simp [keyLeB, h])
  | true => exact Or.inr (by simp [keyLeB, keyLtB_asymm b a h])

theorem keyLeB_trans (a b c : SeriesKey) (h1 : keyLeB a b = true) (h2 : keyLeB b c = true) :
    keyLeB a c = true := by
  simp only [keyLeB, Bool.not_eq_true'] at h1 h2 ⊢
  cases hca : keyLtB c a with
  | false => rfl
  | true =>
    cases hbc : keyLtB b c with
    | true => rw [keyLtB_trans b c a hbc hca] at h1; cases h1
    | false =>
      have : b = c := keyLtB_connex b c hbc h2
      subst this
      rw [hca] at h1
      cases h1

/-- C10 (witness): nonempty `extra_tags` supplied to a point without a
`'tags'` key are silently dropped. -/
theorem missing_tags_key_drops_extra_tags_witness :
    _parse_tags ⟨some (.str "x"), Option.none, [("a", .int 1)], Option.none⟩
        [("env", .str "prod")] = "" ∧
      make_line ⟨some (.str "x"), Option.none, [("a", .int 1)], Option.none⟩ Option.none
        [("env", .str "prod")] = .ok "x a=1i " := by
  have h := missing_tags_key_drops_extra_tags
    ⟨some (.str "x"), Option.none, [("a", .int 1)], Option.none⟩ Option.none
    [("env", .str "prod")] rfl
  exact ⟨h.1, by rw [h.2]; decide⟩

/-! ## Stability and grouping lemmas for the decoder -/

theorem mem_insertSorted {z x : SeriesKey × Table} :
    ∀ {l}, z ∈ insertSorted x l ↔ z = x ∨ z ∈ l := by
  intro l
  induction l with
  | nil => simp [insertSorted]
  | cons y ys ih =>
    simp only [insertSorted]
    split
    · simp only [List.mem_cons]
    · simp only [List.mem_cons, ih]; tauto

theorem insertSorted_pairwise {x : SeriesKey × Table} {l : List (SeriesKey × Table)}
    (h : l.Pairwise (fun a b => keyLeB a.1 b.1 = true)) :
    (insertSorted x l).Pairwise (fun a b => keyLeB a.1 b.1 = true) := by
  induction l with
  | nil => simp [insertSorted]
  | cons y ys ih =>
    rw [List.pairwise_cons] at h
    simp only [insertSorted]
    split
    case isTrue hx =>
      rw [List.pairwise_cons]
      refine ⟨?_, List.pairwise_cons.mpr h⟩
      intro z hz
      rcases List.mem_cons.mp hz with rfl | hz2
      · exact hx
      · exact keyLeB_trans _ _ _ hx (h.1 z hz2)
    case isFalse hx =>
      rw [List.pairwise_cons]
      refine ⟨?_, ih h.2⟩
      intro z hz
      rcases mem_insertSorted.mp hz with rfl | hz2
      · rcases keyLeB_total z.1 y.1 with h1 | h1
        · exact absurd h1 hx
        · exact h1
      · exact h.1 z hz2

theorem sortByKey_pairwise (l : List (SeriesKey × Table)) :
    (sortByKey l).Pairwise (fun a b => keyLeB a.1 b.1 = true) := by
  induction l with
  | nil => simp [sortByKey]
  | cons x xs ih => exact insertSorted_pairwise ih

theorem filter_insertSorted (x : SeriesKey × Table) (l : List (SeriesKey × Table))
    (k : SeriesKey) :
    (insertSorted x l).filter (fun p => p.1 = k) =
      if x.1 = k then x :: l.filter (fun p => p.1 = k)
      else l.filter (fun p => p.1 = k) := by
  induction l with
  | nil => by_cases hx : x.1 = k <;> simp [insertSorted, List.filter, hx]
  | cons y ys ih =>
    simp only [insertSorted]
    split
    case isTrue hle =>
      by_cases hx : x.1 = k <;> simp [List.filter_cons, hx]
    case isFalse hle =>
      by_cases hy : y.1 = k
      · have hx : x.1 ≠ k := by
          intro hx
          exact hle (by rw [hx, hy]; exact keyLeB_refl k)
        simp [List.filter_cons, hy, hx, ih]
      · simp [List.filter_cons, hy, ih]

theorem filter_sortByKey (l : List (SeriesKey × Table)) (k : SeriesKey) :
    (sortByKey l).filter (fun p => p.1 = k) = l.filter (fun p => p.1 = k) := by
  induction l with
  | nil => rfl
  | cons x xs ih =>
    rw [sortByKey, filter_insertSorted]
    by_cases h : x.1 = k <;> simp [h, ih, List.filter_cons]

theorem alookup_addToGroup (acc : List (SeriesKey × List Table)) (k2 : SeriesKey)
    (t : Table) (k : SeriesKey) :
    alookup k (addToGroup acc k2 t) =
      if k2 = k then some ((alookup k acc).getD [] ++ [t]) else alookup k acc := by
  induction acc with
  | nil => by_cases h : k2 = k <;> simp [addToGroup, alookup, h]
  | cons kv rest ih =>
    simp only [addToGroup]
    by_cases h1 : kv.1 = k2
    · rw [if_pos h1]
      by_cases h2 : k2 = k
      · have hk : kv.1 = k := h1.trans h2
        rw [if_pos h2]
        simp [alookup, hk]
      · have hk : kv.1 ≠ k := by rw [h1]; exact h2
        rw [if_neg h2]
        simp [alookup, hk]
    · rw [if_neg h1]
      by_cases h3 : kv.1 = k
      · have h2 : k2 ≠ k := fun hk => h1 (h3.trans hk.symm)
        rw [if_neg h2]
        simp [alookup, h3]
      · by_cases h2 : k2 = k
        · subst h2
          simp [alookup, h3, ih]
        · rw [if_neg h2]
          simp [alookup, h3, ih, h2]

theorem alookup_foldl_addToGroup (l : List (SeriesKey × Table)) :
    ∀ (acc : List (SeriesKey × List Table)) (k : SeriesKey),
    alookup k (l.foldl (fun a kt => addToGroup a kt.1 kt.2) acc) =
      match alookup k acc with
      | some ts0 => some (ts0 ++ (l.filter (fun p => p.1 = k)).map (fun p => p.2))
      | Option.none =>
        if (l.filter (fun p => p.1 = k)).isEmpty then Option.none
        else some ((l.filter (fun p => p.1 = k)).map (fun p => p.2)) := by
  induction l with
  | nil =>
    intro acc k
    cases h : alookup k acc <;> simp [h]
  | cons kt l2 ih =>
    intro acc k
    rw [List.foldl_cons, ih, alookup_addToGroup]
    by_cases hk : kt.1 = k
    · have hfc : (kt :: l2).filter (fun p => p.1 = k) =
          kt :: l2.filter (fun p => p.1 = k) := by
        simp [List.filter_cons, hk]
      rw [if_pos hk, hfc]
      cases h : alookup k acc <;> simp [h]
    · have hfc : (kt :: l2).filter (fun p => p.1 = k) =
          l2.filter (fun p => p.1 = k) := by
        simp [List.filter_cons, hk]
      rw [if_neg hk, hfc]

theorem alookup_groupPairs (l : List (SeriesKey × Table)) (k : SeriesKey) :
    alookup k (groupPairs l) =
      if (l.filter (fun p => p.1 = k)).isEmpty then Option.none
      else some ((l.filter (fun p => p.1 = k)).map (fun p => p.2)) := by
  have h := alookup_foldl_addToGroup l [] k
  simpa [groupPairs, alookup] using h

theorem addToGroup_keys (acc : List (SeriesKey × List Table)) (k2 : SeriesKey) (t : Table) :
    (addToGroup acc k2 t).map (fun kv => kv.1) =
      if (alookup k2 acc).isSome then acc.map (fun kv => kv.1)
      else acc.map (fun kv => kv.1) ++ [k2] := by
  induction acc with
  | nil => simp [addToGroup, alookup]
  | cons kv rest ih =>
    simp only [addToGroup, alookup]
    by_cases h : kv.1 = k2
    · simp [h]
    · simp only [if_neg h, List.map_cons, ih]
      by_cases hc : (alookup k2 rest).isSome = true
      · rw [if_pos hc, if_pos hc]
      · rw [if_neg hc, if_neg hc]
        rfl

theorem foldl_addToGroup_keys_sublist (l : List (SeriesKey × Table)) :
    ∀ acc : List (SeriesKey × List Table),
    ∃ r, (l.foldl (fun a kt => addToGroup a kt.1 kt.2) acc).map (fun kv => kv.1) =
        acc.map (fun kv => kv.1) ++ r ∧ r.Sublist (l.map (fun p => p.1)) := by
  induction l with
  | nil => intro acc; exact ⟨[], by simp, by simp⟩
  | cons kt l2 ih =>
    intro acc
    rw [List.foldl_cons]
    obtain ⟨r, hr, hsub⟩ := ih (addToGroup acc kt.1 kt.2)
    rw [hr, addToGroup_keys]
    by_cases h : (alookup kt.1 acc).isSome
    · exact ⟨r, by simp [h], hsub.trans (List.sublist_cons_self _ _)⟩
    · exact ⟨kt.1 :: r, by simp [h], List.Sublist.cons₂ _ hsub⟩

theorem concatTables_rows : ∀ ts : List Table, (concatTables ts).rows = (ts.map Table.rows).flatten := by
  intro ts
  induction ts with
  | nil => simp [concatTables]
  | cons t ts2 ih =>
    cases ts2 with
    | nil => simp [concatTables]
    | cons t2 ts3 => simp [concatTables, ih]

theorem drop_zero_index_rows (t : Table) : (drop_zero_index t).rows = t.rows := by
  rcases h : t.index with _ | l
  · unfold drop_zero_index
    simp only [h]
  · unfold drop_zero_index
    simp only [h]
    by_cases hz : (l.all fun x => x == 0) = true
    · rw [if_pos hz]
    · rw [if_neg hz]

theorem drop_zero_index_of_all_zero (t : Table) (l : List Int) (h : t.index = some l)
    (hz : ∀ x ∈ l, x = 0) : drop_zero_index t = { t with index := Option.none } := by
  unfold drop_zero_index
  simp only [h]
  rw [if_pos]
  exact List.all_eq_true.mpr (fun x hx => by simpa using hz x hx)

theorem applyCats_nil (k : SeriesKey) (t : Table) : applyCats [] k t = t := rfl

theorem alookup_map_snd {α β : Type} (f : SeriesKey → α → β) (l : List (SeriesKey × α))
    (k : SeriesKey) :
    alookup k (l.map (fun kv => (kv.1, f kv.1 kv.2))) = (alookup k l).map (f k) := by
  induction l with
  | nil => rfl
  | cons kv rest ih =>
    simp only [List.map_cons, alookup]
    by_cases h : kv.1 = k
    · subst h; simp
    · simp [h, ih]

theorem maker_rows (s : InfluxSeries) (t : Table) (h : maker s = some t) :
    t.rows = s.values.map (rowTransform s) := by
  unfold maker at h
  by_cases htime : "time" ∈ s.columns
  · rw [if_pos htime] at h
    cases hm : s.values.mapM
        (fun row => (row.get? (s.columns.findIdx (· == "time"))).bind cellNs) with
    | none => rw [hm] at h; cases h
    | some idx =>
      rw [hm] at h
      injection h with h2
      rw [← h2]
  · rw [if_neg htime] at h
    injection h with h2
    rw [← h2]
    have hmap : List.map (rowTransform s) s.values = s.values := by
      induction s.values with
      | nil => rfl
      | cons r rs ih => simp [rowTransform, htime, ih]
    exact hmap.symm

/-! ## Claim theorems: response decoder -/

/-- C5 (counterexample): two chunks whose tag mappings hold the same pairs in
different insertion order share the spec's claimed "(name, sorted
tags-as-tuple)" identity, yet decode keys groups by the unsorted
insertion-order tag tuple and returns two separate one-row tables for them,
not one two-row table per sorted identity. -/
theorem make_df_splits_equal_sorted_identities :
    specSortedKey ⟨"m", some [("a", "1"), ("b", "2")], ["time", "v"], [[.i 1, .i 10]]⟩ =
      specSortedKey ⟨"m", some [("b", "2"), ("a", "1")], ["time", "v"], [[.i 2, .i 20]]⟩ ∧
    (make_df [⟨some [⟨"m", some [("a", "1"), ("b", "2")], ["time", "v"], [[.i 1, .i 10]]⟩,
          ⟨"m", some [("b", "2"), ("a", "1")], ["time", "v"], [[.i 2, .i 20]]⟩]⟩] []).map
        (fun out => out.map (fun kv => (kv.1, kv.2.rows.length))) =
      some [((("m" : String), [("a", "1"), ("b", "2")]), 1),
            ((("m" : String), [("b", "2"), ("a", "1")]), 1)] := by
  decide

/-- C5 (amended): decode groups chunks by the identity key (name, tags-tuple
in mapping iteration order) — not by sorted tags.  For each such identity the
returned dict holds one table whose rows are the concatenation, in chunk
encounter order, of the contributing chunks' rows (each chunk's rows in
original order, reshaped only by dropping the time cell and appending the
constant tag columns), so its row count is the sum of the chunks' row counts;
identity groups appear in ascending order of the identity key. -/
theorem make_df_concats_in_encounter_order (resp : List Statement)
    (pairs out : List (SeriesKey × Table))
    (hpairs : (allSeries resp).mapM (fun s => (maker s).map (fun t => (seriesKey s, t)))
      = some pairs)
    (hout : make_df resp [] = some out) :
    (∀ s t, maker s = some t → t.rows = s.values.map (rowTransform s)) ∧
    (∀ k t, alookup k out = some t →
        t.rows = ((pairs.filter (fun p => p.1 = k)).map (fun p => p.2.rows)).flatten ∧
        t.rows.length = ((pairs.filter (fun p => p.1 = k)).map (fun p => p.2.rows.length)).sum) ∧
    (∀ k, alookup k out = Option.none ↔ pairs.filter (fun p => p.1 = k) = []) ∧
    (out.map (fun kv => kv.1)).Pairwise (fun a b => keyLeB a b = true) := by
  unfold make_df at hout
  rw [hpairs] at hout
  injection hout with hout
  subst hout
  have hlk : ∀ k, alookup k ((make_df_tables pairs).map
      (fun kv => (kv.1, applyCats [] kv.1 (drop_zero_index kv.2)))) =
      (alookup k (make_df_tables pairs)).map
        (fun t => applyCats [] k (drop_zero_index t)) := by
    intro k
    exact alookup_map_snd (fun k t => applyCats [] k (drop_zero_index t)) _ k
  have hmk : ∀ k, alookup k (make_df_tables pairs) =
      (alookup k (groupPairs (sortByKey pairs))).map (fun ts => concatTables ts) := by
    intro k
    exact alookup_map_snd (fun _ ts => concatTables ts) _ k
  refine ⟨fun s t ht => maker_rows s t ht, ?_, ?_, ?_⟩
  · intro k t ht
    rw [hlk, hmk, alookup_groupPairs, filter_sortByKey] at ht
    by_cases he : (pairs.filter (fun p => p.1 = k)).isEmpty
    · rw [if_pos he] at ht; cases ht
    · rw [if_neg he] at ht
      simp only [Option.map_some'] at ht
      injection ht with ht
      rw [← ht, applyCats_nil, drop_zero_index_rows, concatTables_rows]
      constructor
      · rw [List.map_map]; rfl
      · rw [List.length_flatten, List.map_map, List.map_map]; rfl
  · intro k
    rw [hlk, hmk, alookup_groupPairs, filter_sortByKey]
    by_cases he : (pairs.filter (fun p => p.1 = k)).isEmpty
    · simp [he, List.isEmpty_iff.mp he]
    · simp only [if_neg he, Option.map_some']
      constructor
      · intro hcontr; cases hcontr
      · intro hcontr; exact absurd (by rw [hcontr]; rfl) he
  · have hmap : ((make_df_tables pairs).map
        (fun kv => (kv.1, applyCats [] kv.1 (drop_zero_index kv.2)))).map (fun kv => kv.1)
        = (groupPairs (sortByKey pairs)).map (fun kv => kv.1) := by
      unfold make_df_tables
      rw [List.map_map, List.map_map]
      rfl
    rw [hmap]
    obtain ⟨r, hr, hsub⟩ := foldl_addToGroup_keys_sublist (sortByKey pairs) []
    have hr2 : (groupPairs (sortByKey pairs)).map (fun kv => kv.1) = r := by
      simpa [groupPairs] using hr
    rw [hr2]
    have hsorted : ((sortByKey pairs).map (fun p => p.1)).Pairwise
        (fun a b => keyLeB a b = true) :=
      List.Pairwise.map _ (fun a b hab => hab) (sortByKey_pairwise pairs)
    exact hsorted.sublist hsub

/-- C5 (witness): the amended statement instantiated on a concrete
three-chunk response — the identity `(m, ((h, a)))` arrives in two chunks of
two and one rows and decodes to one table of three rows, the concatenation in
encounter order. -/
theorem make_df_concats_in_encounter_order_witness :
    (⟨some [5, 6, 7], ["v", "h"],
        [[.i 50, .s "a"], [.i 60, .s "a"], [.i 70, .s "a"]], []⟩ : Table).rows =
      ((exPairs.filter (fun p => p.1 = ("m", [("h", "a")]))).map
        (fun p => p.2.rows)).flatten ∧
    (⟨some [5, 6, 7], ["v", "h"],
        [[.i 50, .s "a"], [.i 60, .s "a"], [.i 70, .s "a"]], []⟩ : Table).rows.length =
      ((exPairs.filter (fun p => p.1 = ("m", [("h", "a")]))).map
        (fun p => p.2.rows.length)).sum :=
  (make_df_concats_in_encounter_order exResp exPairs exOut (by decide) (by decide)).2.1
    ("m", [("h", "a")]) _ (by decide)

/-- C8: after concatenation, a group whose temporal index consists entirely
of the zero epoch has that index discarded: the returned table is the same
table re-indexed positionally (a non-temporal index), rows untouched. -/
theorem make_df_resets_all_zero_epoch_index (resp : List Statement)
    (pairs out : List (SeriesKey × Table)) (k : SeriesKey) (t : Table) (l : List Int)
    (hpairs : (allSeries resp).mapM (fun s => (maker s).map (fun t => (seriesKey s, t)))
      = some pairs)
    (hout : make_df resp [] = some out)
    (hlk : alookup k (make_df_tables pairs) = some t)
    (hidx : t.index = some l) (hz : ∀ x ∈ l, x = 0) :
    alookup k out = some { t with index := Option.none } := by
  unfold make_df at hout
  rw [hpairs] at hout
  injection hout with hout
  subst hout
  rw [alookup_map_snd (fun k t => applyCats [] k (drop_zero_index t)) _ k, hlk]
  simp only [Option.map_some']
  rw [applyCats_nil, drop_zero_index_of_all_zero t l hidx hz]

/-- C8 (witness): the `SHOW`-style series `b` of the concrete response has
temporal index `(0, 0)` after concatenation and decodes with a positional
index and unchanged rows. -/
theorem make_df_resets_all_zero_epoch_index_witness :
    alookup ("b", []) exOut =
      some ⟨Option.none, ["v"], [[.i 1], [.i 2]], []⟩ :=
  make_df_resets_all_zero_epoch_index exResp exPairs exOut ("b", [])
    ⟨some [0, 0], ["v"], [[.i 1], [.i 2]], []⟩ [0, 0]
    (by decide) (by decide) (by decide) (by decide) (by decide)

end Aioinflux

namespace Aioinflux

/-! ## Claim theorems: dispatch encoder -/

/-- C7: `parse_data` classifies its input in the priority order of the
source's `isinstance` chain: already-binary payloads pass through unchanged;
text passes through as UTF-8 bytes; a DataFrame requires `measurement` and
fails with the missing-measurement error otherwise, else routes to
`parse_df`; a mapping routes to `make_line` even though mappings are
iterable (the dict test precedes the `__iter__` test); any other iterable is
encoded element-wise recursively with the same parameters and joined with
newlines, the first element error propagating; anything else fails with the
invalid-input error. -/
theorem parse_data_classification :
    (∀ s m tc et, parse_data (.bytes s) m tc et = .ok s) ∧
    (∀ s m tc et, parse_data (.str s) m tc et = .ok s) ∧
    (∀ df tc et, parse_data (.frame df) Option.none tc et =
      .error .missingMeasurementFrame) ∧
    (∀ df mm tc et, parse_data (.frame df) (some mm) tc et =
      match parse_df df mm tc et with
      | .error _ => .error .invalidInput
      | .ok out => .ok out) ∧
    (∀ p m tc et, hasIter (.dict p) = true ∧
      parse_data (.dict p) m tc et =
        match make_line p m et with
        | .error _ => .error .measurementMissingPoint
        | .ok line => .ok line) ∧
    (∀ l m tc et, parse_data (.iter l) m tc et =
      match l.mapM (fun d => parse_data d m tc et) with
      | .error e => .error e
      | .ok parts => .ok (joinSep "\n" parts)) ∧
    (∀ m tc et, parse_data .other m tc et = .error .invalidInput ∧
      hasIter .other = false) := by
  have hmany : ∀ (l : List PyData) m tc et,
      parse_many l m tc et = l.mapM (fun d => parse_data d m tc et) := by
    intro l m tc et
    induction l with
    | nil => rw [parse_many, List.mapM_nil]; rfl
    | cons d rest ih =>
      rw [parse_many, List.mapM_cons, ih]
      cases parse_data d m tc et with
      | error e => rfl
      | ok s =>
        cases rest.mapM (fun d => parse_data d m tc et) with
        | error e => rfl
        | ok ss => rfl
  refine ⟨fun s m tc et => by rw [parse_data], fun s m tc et => by rw [parse_data],
    fun df tc et => by rw [parse_data], fun df mm tc et => by rw [parse_data],
    fun p m tc et => ⟨rfl, by rw [parse_data]⟩, ?_,
    fun m tc et => ⟨by rw [parse_data], rfl⟩⟩
  intro l m tc et
  rw [parse_data, hmany]

end Aioinflux

namespace Aioinflux

/-! ## Cleanliness toolbox for the tabular encoder -/

theorem decDigit_clean (d : Nat) : CleanChar (decDigit d) := by
  rcases Nat.lt_or_ge d 10 with h | h
  · interval_cases d <;> decide
  · have he : decDigit d = '*' := by
      have h0 : ¬ d = 0 := by omega
      have h1 : ¬ d = 1 := by omega
      have h2 : ¬ d = 2 := by omega
      have h3 : ¬ d = 3 := by omega
      have h4 : ¬ d = 4 := by omega
      have h5 : ¬ d = 5 := by omega
      have h6 : ¬ d = 6 := by omega
      have h7 : ¬ d = 7 := by omega
      have h8 : ¬ d = 8 := by omega
      have h9 : ¬ d = 9 := by omega
      unfold decDigit
      rw [if_neg h0, if_neg h1, if_neg h2, if_neg h3, if_neg h4,
        if_neg h5, if_neg h6, if_neg h7, if_neg h8, if_neg h9]
    rw [he]; decide

theorem natDigitsGo_clean : ∀ fuel n, ∀ c ∈ natDigitsGo fuel n, CleanChar c := by
  intro fuel
  induction fuel with
  | zero => intro n c hc; simp [natDigitsGo] at hc
  | succ f ih =>
    intro n c hc
    rw [natDigitsGo] at hc
    by_cases h : n < 10
    · rw [if_pos h] at hc
      simp at hc
      subst hc
      exact decDigit_clean n
    · rw [if_neg h] at hc
      rcases List.mem_append.mp hc with h2 | h2
      · exact ih _ c h2
      · simp at h2; subst h2; exact decDigit_clean _

theorem natDigitsGo_ne_nil : ∀ fuel n, fuel ≠ 0 → natDigitsGo fuel n ≠ [] := by
  intro fuel n h
  cases fuel with
  | zero => exact absurd rfl h
  | succ f =>
    rw [natDigitsGo]
    by_cases h2 : n < 10
    · simp [h2]
    · simp [h2]

theorem intRepr_clean (n : Int) :
    (intRepr n).data ≠ [] ∧ ∀ c ∈ (intRepr n).data, CleanChar c := by
  cases n with
  | ofNat m =>
    refine ⟨natDigitsGo_ne_nil _ _ (by omega), ?_⟩
    intro c hc
    exact natDigitsGo_clean _ _ c hc
  | negSucc m =>
    refine ⟨by simp [intRepr], ?_⟩
    intro c hc
    rcases List.mem_cons.mp hc with rfl | h2
    · decide
    · exact natDigitsGo_clean _ _ c h2

theorem translateL_key_escape_clean : ∀ cs, (∀ c ∈ cs, CleanChar c) →
    ∀ c2 ∈ translateL key_escape cs, CleanChar c2 := by
  intro cs
  induction cs with
  | nil => intro _ c2 h2; simp [translateL] at h2
  | cons c rest ih =>
    intro h c2 h2
    rw [translateL] at h2
    obtain ⟨hc1, hc2, hc3⟩ := h c (by simp)
    rcases List.mem_append.mp h2 with h3 | h3
    · by_cases e1 : c = '\\'
      · subst e1
        simp [key_escape] at h3
        subst h3
        decide
      · by_cases e2 : c = '='
        · subst e2
          simp [key_escape] at h3
          rcases h3 with rfl | rfl <;> decide
        · have hnone : key_escape c = Option.none := by
            simp [key_escape, e1, e2, hc1, hc2, hc3]
          rw [hnone] at h3
          simp at h3
          subst h3
          exact ⟨hc1, hc2, hc3⟩
    · exact ih (fun c3 h3b => h c3 (by simp [h3b])) c2 h3

/-! ## Delimiter-pair toolbox -/

theorem goodPair_of_fst {a : Char} (b : Char) (h : a ≠ ',' ∧ a ≠ ' ') : goodPair a b :=
  ⟨fun hb => h.1 hb.1, fun hb => h.1 hb.1, fun hb => h.2 hb.1⟩

theorem goodPair_of_snd (a : Char) {b : Char} (h : b ≠ ',' ∧ b ≠ ' ') : goodPair a b :=
  ⟨fun hb => h.1 hb.2, fun hb => h.2 hb.2, fun hb => h.1 hb.2⟩

theorem chain_good_of_clean (l : List Char) (h : ∀ c ∈ l, c ≠ ',' ∧ c ≠ ' ') :
    List.Chain' goodPair l := by
  induction l with
  | nil => simp
  | cons c rest ih =>
    rw [List.chain'_cons']
    exact ⟨fun y _ => goodPair_of_fst y (h c (by simp)),
      ih (fun c2 h2 => h c2 (by simp [h2]))⟩

theorem pair_infix_chain {R : Char → Char → Prop} :
    ∀ (l : List Char) a b, List.Chain' R l → [a, b] <:+: l → R a b := by
  intro l
  induction l with
  | nil => intro a b _ hinf; simp at hinf
  | cons c t ih =>
    intro a b hch hinf
    rcases List.infix_cons_iff.mp hinf with hpre | hinf2
    · obtain ⟨r, hr⟩ := hpre
      have hr2 : a :: b :: r = c :: t := hr
      injection hr2 with hac ht
      rw [← hac, ← ht] at hch
      exact (List.chain'_cons.mp hch).1
    · exact ih a b hch.tail hinf2

/-! ## Comma-joined token lists -/

theorem joinSep_comma_props : ∀ tokens : List String, (∀ t ∈ tokens, TokOk t) →
    List.Chain' goodPair (joinSep "," tokens).data ∧
    (∀ c ∈ (joinSep "," tokens).data.head?, c ≠ ',' ∧ c ≠ ' ') ∧
    (∀ c ∈ (joinSep "," tokens).data.getLast?, c ≠ ',' ∧ c ≠ ' ') ∧
    (tokens ≠ [] → (joinSep "," tokens).data ≠ []) := by
  intro tokens
  induction tokens with
  | nil => intro _; simp [joinSep]
  | cons x rest ih =>
    intro h
    have hx := h x (by simp)
    have hxclean : ∀ c ∈ x.data, c ≠ ',' ∧ c ≠ ' ' :=
      fun c hc => ⟨(hx.2 c hc).1, (hx.2 c hc).2.1⟩
    cases rest with
    | nil =>
      refine ⟨chain_good_of_clean _ hxclean, ?_, ?_, fun _ => hx.1⟩
      · intro c hc
        exact hxclean c (List.mem_of_mem_head? hc)
      · intro c hc
        exact hxclean c (List.mem_of_mem_getLast? hc)
    | cons y rest2 =>
      have ih2 := ih (fun t ht => h t (by simp [ht]))
      have hJne : (joinSep "," (y :: rest2)).data ≠ [] := ih2.2.2.2 (by simp)
      have hdata : (joinSep "," (x :: y :: rest2)).data =
          x.data ++ ',' :: (joinSep "," (y :: rest2)).data := by
        show (x ++ "," ++ joinSep "," (y :: rest2)).data = _
        rw [String.data_append, String.data_append]
        simp
      rw [hdata]
      refine ⟨?_, ?_, ?_, fun _ => by simp⟩
      · rw [List.chain'_append]
        refine ⟨chain_good_of_clean _ hxclean, ?_, ?_⟩
        · rw [List.chain'_cons']
          exact ⟨fun y2 hy2 => goodPair_of_snd ',' (ih2.2.1 y2 hy2), ih2.1⟩
        · intro c1 hc1 c2 hc2
          simp at hc2
          rw [← hc2]
          exact goodPair_of_fst ',' (hxclean c1 (List.mem_of_mem_getLast? hc1))
      · rw [List.head?_append]
        intro c hc
        cases hh : x.data.head? with
        | none => rw [List.head?_eq_none_iff] at hh; exact absurd hh hx.1
        | some c0 =>
          rw [hh] at hc
          have he : c0 = c := by simpa using hc
          subst he
          exact hxclean c0 (List.mem_of_mem_head? (by simp [hh]))
      · rw [List.getLast?_append]
        intro c hc
        cases hg : (joinSep "," (y :: rest2)).data.getLast? with
        | none => rw [List.getLast?_eq_none_iff] at hg; exact absurd hg hJne
        | some c1 =>
          have hlast : (',' :: (joinSep "," (y :: rest2)).data).getLast? = some c1 := by
            rw [List.getLast?_cons, hg]
            rfl
          rw [hlast] at hc
          have he : c1 = c := by simpa using hc
          subst he
          exact ih2.2.2.1 c1 (by simp [hg])

end Aioinflux

namespace Aioinflux

/-! ## Assembled-line lemmas -/

theorem joinSep_mem (sep : String) : ∀ (l : List String) (c : Char),
    c ∈ (joinSep sep l).data → c ∈ sep.data ∨ ∃ t ∈ l, c ∈ t.data := by
  intro l
  induction l with
  | nil => intro c hc; simp [joinSep] at hc
  | cons x rest ih =>
    intro c hc
    cases rest with
    | nil => exact Or.inr ⟨x, by simp, hc⟩
    | cons y rest2 =>
      have hd : (joinSep sep (x :: y :: rest2)).data =
          x.data ++ sep.data ++ (joinSep sep (y :: rest2)).data := by
        show (x ++ sep ++ joinSep sep (y :: rest2)).data = _
        rw [String.data_append, String.data_append]
      rw [hd] at hc
      rcases List.mem_append.mp hc with h1 | h1
      · rcases List.mem_append.mp h1 with h2 | h2
        · exact Or.inr ⟨x, by simp, h2⟩
        · exact Or.inl h2
      · rcases ih c h1 with h2 | ⟨t, ht, hct⟩
        · exact Or.inl h2
        · exact Or.inr ⟨t, by simp [ht], hct⟩

theorem chain_space_cons (l : List Char) (h : List.Chain' goodPair l)
    (hhead : ∀ c ∈ l.head?, c ≠ ',') : List.Chain' goodPair (' ' :: l) := by
  rw [List.chain'_cons']
  refine ⟨?_, h⟩
  intro y hy
  exact ⟨fun hb => absurd hb.1 (by decide), fun hb => absurd hb.1 (by decide),
    fun hb => hhead y hy hb.2⟩

theorem line_chain (m : String) {uc : Prop} [Decidable uc]
    (tagTs fieldTs : List String) (ts : String)
    (hm : ∀ c ∈ m.data, CleanChar c)
    (htag : ∀ t ∈ tagTs, TokOk t)
    (hfield : ∀ t ∈ fieldTs, TokOk t)
    (htsclean : ∀ c ∈ ts.data, CleanChar c)
    (hg1 : uc → tagTs ≠ [])
    (hg2 : ¬ uc → tagTs = []) :
    List.Chain' goodPair
      (m ++ (if uc then "," else "") ++ joinSep "," tagTs
        ++ " " ++ joinSep "," fieldTs ++ " " ++ ts).data ∧
    '\n' ∉ (m ++ (if uc then "," else "") ++ joinSep "," tagTs
        ++ " " ++ joinSep "," fieldTs ++ " " ++ ts).data := by
  obtain ⟨jfChain, jfHead, jfLast, _⟩ := joinSep_comma_props fieldTs hfield
  obtain ⟨jtChain, jtHead, jtLast, jtNe⟩ := joinSep_comma_props tagTs htag
  have hmclean : ∀ c ∈ m.data, c ≠ ',' ∧ c ≠ ' ' := fun c hc => ⟨(hm c hc).1, (hm c hc).2.1⟩
  -- innermost segment: ' ' :: ts
  have hD3 : List.Chain' goodPair (' ' :: ts.data) := by
    apply chain_space_cons _ (chain_good_of_clean _ (fun c hc =>
      ⟨(htsclean c hc).1, (htsclean c hc).2.1⟩))
    intro c hc
    exact (htsclean c (List.mem_of_mem_head? hc)).1
  -- fields ++ ' ' :: ts
  have hD2 : List.Chain' goodPair ((joinSep "," fieldTs).data ++ ' ' :: ts.data) := by
    rw [List.chain'_append]
    refine ⟨jfChain, hD3, ?_⟩
    intro x hx y hy
    simp at hy
    rw [← hy]
    exact goodPair_of_fst ' ' (jfLast x hx)
  -- ' ' :: fields ++ ' ' :: ts
  have hD1 : List.Chain' goodPair (' ' :: ((joinSep "," fieldTs).data ++ ' ' :: ts.data)) := by
    apply chain_space_cons _ hD2
    intro c hc
    rw [List.head?_append] at hc
    cases hh : (joinSep "," fieldTs).data.head? with
    | none => rw [hh] at hc; simp at hc; rw [← hc]; decide
    | some c0 =>
      rw [hh] at hc
      have he : c0 = c := by simpa using hc
      subst he
      exact (jfHead c0 (by simp [hh])).1
  by_cases hu : uc
  · -- measurement ++ ',' ++ tags ++ ' ' ++ fields ++ ' ' ++ ts
    have htne := hg1 hu
    have hJtNe := jtNe htne
    have hD0 : List.Chain' goodPair ((joinSep "," tagTs).data
        ++ ' ' :: ((joinSep "," fieldTs).data ++ ' ' :: ts.data)) := by
      rw [List.chain'_append]
      refine ⟨jtChain, hD1, ?_⟩
      intro x hx y hy
      simp at hy
      rw [← hy]
      exact goodPair_of_fst ' ' (jtLast x hx)
    have hDm : List.Chain' goodPair (',' :: ((joinSep "," tagTs).data
        ++ ' ' :: ((joinSep "," fieldTs).data ++ ' ' :: ts.data))) := by
      rw [List.chain'_cons']
      refine ⟨?_, hD0⟩
      intro y hy
      rw [List.head?_append] at hy
      cases hh : (joinSep "," tagTs).data.head? with
      | none => rw [List.head?_eq_none_iff] at hh; exact absurd hh hJtNe
      | some c0 =>
        rw [hh] at hy
        have he : c0 = y := by simpa using hy
        subst he
        exact goodPair_of_snd ',' (jtHead c0 (by simp [hh]))
    have hdata : (m ++ (if uc then "," else "") ++ joinSep "," tagTs
        ++ " " ++ joinSep "," fieldTs ++ " " ++ ts).data =
        m.data ++ ',' :: ((joinSep "," tagTs).data
          ++ ' ' :: ((joinSep "," fieldTs).data ++ ' ' :: ts.data)) := by
      rw [if_pos hu]
      simp [String.data_append]
    rw [hdata]
    constructor
    · rw [List.chain'_append]
      refine ⟨chain_good_of_clean _ hmclean, hDm, ?_⟩
      intro x hx y hy
      simp at hy
      rw [← hy]
      exact goodPair_of_fst ',' (hmclean x (List.mem_of_mem_getLast? hx))
    · intro hmem
      rcases List.mem_append.mp hmem with h1 | h1
      · exact (hm _ h1).2.2 rfl
      · rcases List.mem_cons.mp h1 with h2 | h2
        · cases h2
        · rcases List.mem_append.mp h2 with h3 | h3
          · rcases joinSep_mem "," tagTs _ h3 with h4 | ⟨t, ht, hct⟩
            · simp at h4
            · exact ((htag t ht).2 _ hct).2.2 rfl
          · rcases List.mem_cons.mp h3 with h4 | h4
            · cases h4
            · rcases List.mem_append.mp h4 with h5 | h5
              · rcases joinSep_mem "," fieldTs _ h5 with h6 | ⟨t, ht, hct⟩
                · simp at h6
                · exact ((hfield t ht).2 _ hct).2.2 rfl
              · rcases List.mem_cons.mp h5 with h6 | h6
                · cases h6
                · exact (htsclean _ h6).2.2 rfl
  · -- no tag spec: tagTs = []
    have hte : tagTs = [] := hg2 hu
    have hdata : (m ++ (if uc then "," else "") ++ joinSep "," tagTs
        ++ " " ++ joinSep "," fieldTs ++ " " ++ ts).data =
        m.data ++ ' ' :: ((joinSep "," fieldTs).data ++ ' ' :: ts.data) := by
      rw [hte, if_neg hu]
      simp [String.data_append, joinSep]
    rw [hdata]
    constructor
    · rw [List.chain'_append]
      refine ⟨chain_good_of_clean _ hmclean, hD1, ?_⟩
      intro x hx y hy
      simp at hy
      rw [← hy]
      exact goodPair_of_fst ' ' (hmclean x (List.mem_of_mem_getLast? hx))
    · intro hmem
      rcases List.mem_append.mp hmem with h1 | h1
      · exact (hm _ h1).2.2 rfl
      · rcases List.mem_cons.mp h1 with h2 | h2
        · cases h2
        · rcases List.mem_append.mp h2 with h3 | h3
          · rcases joinSep_mem "," fieldTs _ h3 with h4 | ⟨t, ht, hct⟩
            · simp at h4
            · exact ((hfield t ht).2 _ hct).2.2 rfl
          · rcases List.mem_cons.mp h3 with h4 | h4
            · cases h4
            · exact (htsclean _ h4).2.2 rfl

end Aioinflux

namespace Aioinflux

/-! ## Token facts for rendered rows -/

theorem extraTagTokens_ok (et : List (String × PyVal))
    (h : ∀ kv ∈ et, CleanStr kv.1 ∧ CleanStr (escape kv.2 key_escape).2) :
    ∀ t ∈ extraTagTokens et, TokOk t := by
  intro t ht
  rw [extraTagTokens, List.mem_map] at ht
  obtain ⟨kv, hkv, rfl⟩ := ht
  obtain ⟨h1, h2⟩ := h kv hkv
  have hd : (kv.1 ++ "=\"" ++ (escape kv.2 key_escape).2 ++ "\"").data
      = kv.1.data ++ ('=' :: '"' :: ((escape kv.2 key_escape).2.data ++ ['"'])) := by
    simp [String.data_append]
  constructor
  · rw [hd]; simp
  · intro c hc
    rw [hd] at hc
    rcases List.mem_append.mp hc with hx | hx
    · exact h1 c hx
    · rcases List.mem_cons.mp hx with rfl | hx2
      · decide
      · rcases List.mem_cons.mp hx2 with rfl | hx3
        · decide
        · rcases List.mem_append.mp hx3 with hx4 | hx4
          · exact h2 c hx4
          · rcases List.mem_cons.mp hx4 with rfl | hx5
            · decide
            · simp at hx5

theorem tagColTokens_ok (df : Frame) (tc : List String) (r : FrameRow)
    (hcols : ∀ c ∈ df.columns, CleanStr c.name)
    (hcells : ∀ cell ∈ r.cells, CleanStr (renderCell cell)) :
    ∀ t ∈ tagColTokens df tc r, TokOk t := by
  intro t ht
  rw [tagColTokens, List.mem_map] at ht
  obtain ⟨p, hp, rfl⟩ := ht
  rw [List.mem_filter] at hp
  rcases p with ⟨col, cell⟩
  have hcol : col ∈ df.columns := (List.of_mem_zip hp.1).1
  have hcellm : cell ∈ r.cells := (List.of_mem_zip hp.1).2
  have hkey : ∀ c ∈ (translate key_escape col.name).data, CleanChar c :=
    fun c hc => translateL_key_escape_clean col.name.data (hcols col hcol) c hc
  have hcc : ∀ c ∈ (renderCell cell).data, CleanChar c := hcells cell hcellm
  have hd : (translate key_escape col.name ++ "=" ++ renderCell cell).data
      = (translate key_escape col.name).data ++ ('=' :: (renderCell cell).data) := by
    simp [String.data_append]
  constructor
  · rw [hd]; simp
  · intro c hc
    rw [hd] at hc
    rcases List.mem_append.mp hc with hx | hx
    · exact hkey c hx
    · rcases List.mem_cons.mp hx with rfl | hx2
      · decide
      · exact hcc c hx2

theorem fieldColTokens_ok (df : Frame) (tc : List String) (r : FrameRow)
    (hcols : ∀ c ∈ df.columns, CleanStr c.name)
    (hcells : ∀ cell ∈ r.cells, CleanStr (renderCell cell)) :
    ∀ t ∈ fieldColTokens df tc r, TokOk t := by
  intro t ht
  rw [fieldColTokens, List.mem_map] at ht
  obtain ⟨p, hp, rfl⟩ := ht
  rw [List.mem_filter] at hp
  rcases p with ⟨col, cell⟩
  have hcol : col ∈ df.columns := (List.of_mem_zip hp.1).1
  have hcellm : cell ∈ r.cells := (List.of_mem_zip hp.1).2
  have hkey : ∀ c ∈ (translate key_escape col.name).data, CleanChar c :=
    fun c hc => translateL_key_escape_clean col.name.data (hcols col hcol) c hc
  have hcc : ∀ c ∈ (renderCell cell).data, CleanChar c := hcells cell hcellm
  rcases col with ⟨nm, dt⟩
  cases dt with
  | int =>
    have hd : (fieldColToken ⟨nm, Dtype.int⟩ cell).data
        = (translate key_escape nm).data ++ ('=' :: ((renderCell cell).data ++ ['i'])) := by
      simp [fieldColToken, String.data_append]
    constructor
    · rw [hd]; simp
    · intro c hc
      rw [hd] at hc
      rcases List.mem_append.mp hc with hx | hx
      · exact hkey c hx
      · rcases List.mem_cons.mp hx with rfl | hx2
        · decide
        · rcases List.mem_append.mp hx2 with hx3 | hx3
          · exact hcc c hx3
          · rcases List.mem_cons.mp hx3 with rfl | hx4
            · decide
            · simp at hx4
  | floatbool =>
    have hd : (fieldColToken ⟨nm, Dtype.floatbool⟩ cell).data
        = (translate key_escape nm).data ++ ('=' :: (renderCell cell).data) := by
      simp [fieldColToken, String.data_append]
    constructor
    · rw [hd]; simp
    · intro c hc
      rw [hd] at hc
      rcases List.mem_append.mp hc with hx | hx
      · exact hkey c hx
      · rcases List.mem_cons.mp hx with rfl | hx2
        · decide
        · exact hcc c hx2
  | object =>
    have hd : (fieldColToken ⟨nm, Dtype.object⟩ cell).data
        = (translate key_escape nm).data ++ ('=' :: '"' :: ((renderCell cell).data ++ ['"'])) := by
      simp [fieldColToken, String.data_append]
    constructor
    · rw [hd]; simp
    · intro c hc
      rw [hd] at hc
      rcases List.mem_append.mp hc with hx | hx
      · exact hkey c hx
      · rcases List.mem_cons.mp hx with rfl | hx2
        · decide
        · rcases List.mem_cons.mp hx2 with rfl | hx3
          · decide
          · rcases List.mem_append.mp hx3 with hx4 | hx4
            · exact hcc c hx4
            · rcases List.mem_cons.mp hx4 with rfl | hx5
              · decide
              · simp at hx5
  | categorical =>
    have hd : (fieldColToken ⟨nm, Dtype.categorical⟩ cell).data
        = (translate key_escape nm).data ++ ('=' :: '"' :: ((renderCell cell).data ++ ['"'])) := by
      simp [fieldColToken, String.data_append]
    constructor
    · rw [hd]; simp
    · intro c hc
      rw [hd] at hc
      rcases List.mem_append.mp hc with hx | hx
      · exact hkey c hx
      · rcases List.mem_cons.mp hx with rfl | hx2
        · decide
        · rcases List.mem_cons.mp hx2 with rfl | hx3
          · decide
          · rcases List.mem_append.mp hx3 with hx4 | hx4
            · exact hcc c hx4
            · rcases List.mem_cons.mp hx4 with rfl | hx5
              · decide
              · simp at hx5

theorem tagColTokens_ne_nil_iff (df : Frame) (tc : List String) (r : FrameRow)
    (hlen : r.cells.length = df.columns.length) :
    df.columns.any (colIsTag df tc) = true ↔ tagColTokens df tc r ≠ [] := by
  rw [tagColTokens]
  constructor
  · intro h
    rw [List.any_eq_true] at h
    obtain ⟨c, hc, htag⟩ := h
    have hmap : (df.columns.zip r.cells).map Prod.fst = df.columns :=
      List.map_fst_zip _ _ (by omega)
    rw [← hmap, List.mem_map] at hc
    obtain ⟨p, hp, hpc⟩ := hc
    intro hnil
    rw [List.map_eq_nil_iff] at hnil
    have hmem : p ∈ (df.columns.zip r.cells).filter (fun p => colIsTag df tc p.1) :=
      List.mem_filter.mpr ⟨hp, by rw [hpc]; exact htag⟩
    rw [hnil] at hmem
    exact absurd hmem (List.not_mem_nil p)
  · intro h
    have h2 : (df.columns.zip r.cells).filter (fun p => colIsTag df tc p.1) ≠ [] := by
      intro hnil
      rw [hnil] at h
      exact h rfl
    obtain ⟨p, hp⟩ := List.exists_mem_of_ne_nil _ h2
    rw [List.mem_filter] at hp
    rcases p with ⟨col, cell⟩
    rw [List.any_eq_true]
    exact ⟨col, (List.of_mem_zip hp.1).1, hp.2⟩

theorem tagColTokens_nil_of_none (df : Frame) (tc : List String) (r : FrameRow)
    (h : df.columns.any (colIsTag df tc) = false) : tagColTokens df tc r = [] := by
  rw [tagColTokens, List.map_eq_nil_iff, List.filter_eq_nil_iff]
  intro p hp
  rcases p with ⟨col, cell⟩
  rw [List.any_eq_false] at h
  simpa using h col (List.of_mem_zip hp).1

/-- A rendered row of a clean frame has no dangling-delimiter pair and no
newline. -/
theorem renderRow_props (df : Frame) (m : String) (tc : List String)
    (et : List (String × PyVal)) (r : FrameRow)
    (hclean : CleanFrame df m et) (hr : r ∈ df.rows) :
    List.Chain' goodPair (renderRow df m tc et r).data ∧
      '\n' ∉ (renderRow df m tc et r).data := by
  obtain ⟨hm, hcols, het, hrows⟩ := hclean
  obtain ⟨hlen, hcells⟩ := hrows r hr
  have htagOk : ∀ t ∈ extraTagTokens et ++ tagColTokens df tc r, TokOk t := by
    intro t ht
    rcases List.mem_append.mp ht with h1 | h1
    · exact extraTagTokens_ok et het t h1
    · exact tagColTokens_ok df tc r hcols hcells t h1
  have hfieldOk := fieldColTokens_ok df tc r hcols hcells
  have htsclean : ∀ c ∈ (intRepr r.ts).data, CleanChar c := (intRepr_clean r.ts).2
  have hg1 : (et ≠ [] ∨ df.columns.any (colIsTag df tc) = true) →
      extraTagTokens et ++ tagColTokens df tc r ≠ [] := by
    intro h
    rcases h with h | h
    · intro hnil
      rcases List.append_eq_nil.mp hnil with ⟨h1, _⟩
      rw [extraTagTokens, List.map_eq_nil_iff] at h1
      exact h h1
    · intro hnil
      rcases List.append_eq_nil.mp hnil with ⟨_, h2⟩
      exact (tagColTokens_ne_nil_iff df tc r hlen).mp h h2
  have hg2 : ¬ (et ≠ [] ∨ df.columns.any (colIsTag df tc) = true) →
      extraTagTokens et ++ tagColTokens df tc r = [] := by
    intro h
    push_neg at h
    rw [h.1]
    rw [tagColTokens_nil_of_none df tc r (by simpa using h.2)]
    rfl
  exact line_chain m (extraTagTokens et ++ tagColTokens df tc r)
    (fieldColTokens df tc r) (intRepr r.ts) hm htagOk hfieldOk htsclean hg1 hg2

end Aioinflux

namespace Aioinflux

/-! ## Scanner lemmas for the null-row replacements -/

theorem matchPat_mem : ∀ p cs rest, matchPat p cs = some rest → ∀ c ∈ rest, c ∈ cs := by
  intro p
  induction p with
  | nil =>
    intro cs rest h c hc
    rw [matchPat] at h
    injection h with h
    rw [← h] at hc
    exact hc
  | cons p2 ps ih =>
    intro cs rest h c hc
    cases cs with
    | nil => rw [matchPat] at h; cases h
    | cons c2 cs2 =>
      rw [matchPat] at h
      by_cases he : p2 = c2
      · rw [if_pos he] at h
        exact List.mem_cons_of_mem c2 (ih cs2 rest h c hc)
      · rw [if_neg he] at h; cases h

theorem firstPat_mem : ∀ pats cs rest, firstPat pats cs = some rest → ∀ c ∈ rest, c ∈ cs := by
  intro pats
  induction pats with
  | nil => intro cs rest h; rw [firstPat] at h; cases h
  | cons p prest ih =>
    intro cs rest h c hc
    rw [firstPat] at h
    by_cases he : p = []
    · rw [if_pos he] at h
      exact ih cs rest h c hc
    · rw [if_neg he] at h
      cases hm : matchPat p cs with
      | some r =>
        rw [hm] at h
        injection h with h
        rw [← h] at hc
        exact matchPat_mem p cs r hm c hc
      | none =>
        rw [hm] at h
        exact ih cs rest h c hc

theorem substGo_mem (pats : List (List Char)) :
    ∀ fuel cs c, c ∈ substGo pats [] fuel cs → c ∈ cs := by
  intro fuel
  induction fuel with
  | zero => intro cs c hc; simp [substGo] at hc
  | succ f ih =>
    intro cs c hc
    cases cs with
    | nil => simp [substGo] at hc
    | cons c2 cs2 =>
      rw [substGo] at hc
      cases hm : firstPat pats (c2 :: cs2) with
      | some rest =>
        rw [hm] at hc
        have hc2 : c ∈ substGo pats [] f rest := hc
        exact firstPat_mem pats _ rest hm c (ih rest c hc2)
      | none =>
        rw [hm] at hc
        have hc3 : c ∈ c2 :: substGo pats [] f cs2 := hc
        rcases List.mem_cons.mp hc3 with rfl | hc2
        · simp
        · exact List.mem_cons_of_mem c2 (ih cs2 c hc2)

theorem mem_of_mem_dropWhile (p : Char → Bool) :
    ∀ (l : List Char) c, c ∈ l.dropWhile p → c ∈ l := by
  intro l
  induction l with
  | nil => intro c h; simp at h
  | cons x xs ih =>
    intro c h
    rw [List.dropWhile_cons] at h
    by_cases hp : p x = true
    · rw [if_pos hp] at h
      exact List.mem_cons_of_mem x (ih c h)
    · rw [if_neg hp] at h
      exact h

theorem dropWhile_head_not (p : Char → Bool) :
    ∀ (l : List Char) a, (l.dropWhile p).head? = some a → p a = false := by
  intro l
  induction l with
  | nil => intro a h; simp at h
  | cons x xs ih =>
    intro a h
    rw [List.dropWhile_cons] at h
    by_cases hp : p x = true
    · rw [if_pos hp] at h
      exact ih a h
    · rw [if_neg hp] at h
      have hxa : x = a := by simpa using h
      rw [← hxa]
      exact Bool.eq_false_iff.mpr hp

theorem collapseGo_eq_cc (f : Nat) (rest : List Char) :
    collapseGo (f + 1) (',' :: ',' :: rest)
      = ',' :: collapseGo f (rest.dropWhile (fun x => x == ',')) := by
  simp [collapseGo]

theorem collapseGo_eq_copy (f : Nat) (c : Char) (cs : List Char)
    (h : c = ',' → cs.head? ≠ some ',') :
    collapseGo (f + 1) (c :: cs) = c :: collapseGo f cs := by
  by_cases hc : c = ','
  · subst hc
    cases cs with
    | nil => simp [collapseGo]
    | cons c2 rest =>
      have h2 : ¬ c2 = ',' := fun he => h rfl (by rw [he]; rfl)
      simp [collapseGo, h2]
  · cases cs with
    | nil => simp [collapseGo, hc]
    | cons c2 rest => simp [collapseGo, hc]

theorem collapseGo_mem : ∀ fuel cs c, c ∈ collapseGo fuel cs → c ∈ cs := by
  intro fuel
  induction fuel with
  | zero => intro cs c hc; simp [collapseGo] at hc
  | succ f ih =>
    intro cs c hc
    cases cs with
    | nil => simp [collapseGo] at hc
    | cons c2 cs2 =>
      by_cases hb : c2 = ',' ∧ cs2.head? = some ','
      · obtain ⟨hb1, hb2⟩ := hb
        subst hb1
        cases cs2 with
        | nil => simp at hb2
        | cons c3 rest =>
          have hb3 : c3 = ',' := by simpa using hb2
          subst hb3
          rw [collapseGo_eq_cc] at hc
          rcases List.mem_cons.mp hc with rfl | hc2
          · simp
          · have h4 : c ∈ rest := mem_of_mem_dropWhile _ rest c (ih _ c hc2)
            exact List.mem_cons_of_mem _ (List.mem_cons_of_mem _ h4)
      · have hguard : c2 = ',' → cs2.head? ≠ some ',' := fun h1 h2 => hb ⟨h1, h2⟩
        rw [collapseGo_eq_copy f c2 cs2 hguard] at hc
        rcases List.mem_cons.mp hc with rfl | hc2
        · simp
        · exact List.mem_cons_of_mem c2 (ih cs2 c hc2)

theorem collapseGo_head : ∀ fuel cs b, (collapseGo fuel cs).head? = some b →
    cs.head? = some b := by
  intro fuel cs b
  cases fuel with
  | zero => intro h; simp [collapseGo] at h
  | succ f =>
    cases cs with
    | nil => intro h; simp [collapseGo] at h
    | cons c2 cs2 =>
      by_cases hb : c2 = ',' ∧ cs2.head? = some ','
      · obtain ⟨hb1, hb2⟩ := hb
        subst hb1
        cases cs2 with
        | nil => simp at hb2
        | cons c3 rest =>
          have hb3 : c3 = ',' := by simpa using hb2
          subst hb3
          rw [collapseGo_eq_cc]
          intro h
          exact h
      · have hguard : c2 = ',' → cs2.head? ≠ some ',' := fun h1 h2 => hb ⟨h1, h2⟩
        rw [collapseGo_eq_copy f c2 cs2 hguard]
        intro h
        exact h

theorem collapseGo_noCC : ∀ fuel cs, List.Chain' noCC (collapseGo fuel cs) := by
  intro fuel
  induction fuel with
  | zero => intro cs; simp [collapseGo]
  | succ f ih =>
    intro cs
    cases cs with
    | nil => simp [collapseGo]
    | cons c2 cs2 =>
      by_cases hb : c2 = ',' ∧ cs2.head? = some ','
      · obtain ⟨hb1, hb2⟩ := hb
        subst hb1
        cases cs2 with
        | nil => simp at hb2
        | cons c3 rest =>
          have hb3 : c3 = ',' := by simpa using hb2
          subst hb3
          rw [collapseGo_eq_cc, List.chain'_cons']
          refine ⟨?_, ih _⟩
          intro y hy
          have hy2 := collapseGo_head f _ y (Option.mem_def.mp hy)
          have hy3 := dropWhile_head_not _ rest y hy2
          intro hcc
          rw [hcc.2] at hy3
          simp at hy3
      · have hguard : c2 = ',' → cs2.head? ≠ some ',' := fun h1 h2 => hb ⟨h1, h2⟩
        rw [collapseGo_eq_copy f c2 cs2 hguard, List.chain'_cons']
        refine ⟨?_, ih cs2⟩
        intro y hy
        have hy2 := collapseGo_head f cs2 y (Option.mem_def.mp hy)
        intro hcc
        exact hguard hcc.1 (hcc.2 ▸ hy2)

end Aioinflux

namespace Aioinflux

/-! ## The delimiter-space replacement -/

theorem subSpaceGo_eq_csc (f : Nat) (rest : List Char) :
    subSpaceGo (f + 1) (',' :: ' ' :: ',' :: rest) = ' ' :: subSpaceGo f rest := by
  simp [subSpaceGo]

theorem subSpaceGo_eq_cs (f : Nat) (cs2 : List Char) (h : cs2.head? ≠ some ',') :
    subSpaceGo (f + 1) (',' :: ' ' :: cs2) = ' ' :: subSpaceGo f cs2 := by
  cases cs2 with
  | nil => simp [subSpaceGo]
  | cons c3 rest =>
    have h3 : ¬ c3 = ',' := fun he => h (by rw [he]; rfl)
    simp [subSpaceGo, h3]

theorem subSpaceGo_eq_sc (f : Nat) (rest : List Char) :
    subSpaceGo (f + 1) (' ' :: ',' :: rest) = ' ' :: subSpaceGo f rest := by
  simp [subSpaceGo]

theorem subSpaceGo_eq_copy (f : Nat) (c : Char) (cs : List Char)
    (h1 : c = ',' → cs.head? ≠ some ' ') (h2 : c = ' ' → cs.head? ≠ some ',') :
    subSpaceGo (f + 1) (c :: cs) = c :: subSpaceGo f cs := by
  by_cases hc : c = ','
  · subst hc
    cases cs with
    | nil => simp [subSpaceGo]
    | cons c2 rest =>
      have hns : ¬ c2 = ' ' := fun he => h1 rfl (by rw [he]; rfl)
      simp [subSpaceGo, hns]
  · by_cases hs : c = ' '
    · subst hs
      cases cs with
      | nil => simp [subSpaceGo]
      | cons c2 rest =>
        have hnc : ¬ c2 = ',' := fun he => h2 rfl (by rw [he]; rfl)
        simp [subSpaceGo, hnc]
    · cases cs with
      | nil => simp [subSpaceGo, hc, hs]
      | cons c2 rest => simp [subSpaceGo, hc, hs]

theorem subSpaceGo_mem : ∀ fuel cs c, c ∈ subSpaceGo fuel cs → c = ' ' ∨ c ∈ cs := by
  intro fuel
  induction fuel with
  | zero => intro cs c hc; simp [subSpaceGo] at hc
  | succ f ih =>
    intro cs c hc
    cases cs with
    | nil => simp [subSpaceGo] at hc
    | cons c2 cs2 =>
      by_cases hb : c2 = ',' ∧ cs2.head? = some ' '
      · obtain ⟨hb1, hb2⟩ := hb
        subst hb1
        cases cs2 with
        | nil => simp at hb2
        | cons c3 cs3 =>
          have hb3 : c3 = ' ' := by simpa using hb2
          subst hb3
          by_cases hb4 : cs3.head? = some ','
          · cases cs3 with
            | nil => simp at hb4
            | cons c4 rest =>
              have hb5 : c4 = ',' := by simpa using hb4
              subst hb5
              rw [subSpaceGo_eq_csc] at hc
              rcases List.mem_cons.mp hc with rfl | hc2
              · exact Or.inl rfl
              · rcases ih rest c hc2 with h | h
                · exact Or.inl h
                · exact Or.inr (by simp [h])
          · rw [subSpaceGo_eq_cs f cs3 hb4] at hc
            rcases List.mem_cons.mp hc with rfl | hc2
            · exact Or.inl rfl
            · rcases ih cs3 c hc2 with h | h
              · exact Or.inl h
              · exact Or.inr (by simp [h])
      · by_cases hb2 : c2 = ' ' ∧ cs2.head? = some ','
        · obtain ⟨hb21, hb22⟩ := hb2
          subst hb21
          cases cs2 with
          | nil => simp at hb22
          | cons c3 rest =>
            have hb23 : c3 = ',' := by simpa using hb22
            subst hb23
            rw [subSpaceGo_eq_sc] at hc
            rcases List.mem_cons.mp hc with rfl | hc2
            · exact Or.inl rfl
            · rcases ih rest c hc2 with h | h
              · exact Or.inl h
              · exact Or.inr (by simp [h])
        · have hg1 : c2 = ',' → cs2.head? ≠ some ' ' := fun h1 h2 => hb ⟨h1, h2⟩
          have hg2 : c2 = ' ' → cs2.head? ≠ some ',' := fun h1 h2 => hb2 ⟨h1, h2⟩
          rw [subSpaceGo_eq_copy f c2 cs2 hg1 hg2] at hc
          rcases List.mem_cons.mp hc with rfl | hc2
          · exact Or.inr (by simp)
          · rcases ih cs2 c hc2 with h | h
            · exact Or.inl h
            · exact Or.inr (by simp [h])

theorem subSpaceGo_head : ∀ fuel cs b, (subSpaceGo fuel cs).head? = some b →
    cs.head? = some b ∨ (b = ' ' ∧ cs.head? = some ',') := by
  intro fuel cs b
  cases fuel with
  | zero => intro h; simp [subSpaceGo] at h
  | succ f =>
    cases cs with
    | nil => intro h; simp [subSpaceGo] at h
    | cons c2 cs2 =>
      by_cases hb : c2 = ',' ∧ cs2.head? = some ' '
      · obtain ⟨hb1, hb2⟩ := hb
        subst hb1
        cases cs2 with
        | nil => simp at hb2
        | cons c3 cs3 =>
          have hb3 : c3 = ' ' := by simpa using hb2
          subst hb3
          by_cases hb4 : cs3.head? = some ','
          · cases cs3 with
            | nil => simp at hb4
            | cons c4 rest =>
              have hb5 : c4 = ',' := by simpa using hb4
              subst hb5
              rw [subSpaceGo_eq_csc]
              intro h
              have hb6 : b = ' ' := by simpa using h.symm
              exact Or.inr ⟨hb6, rfl⟩
          · rw [subSpaceGo_eq_cs f cs3 hb4]
            intro h
            have hb6 : b = ' ' := by simpa using h.symm
            exact Or.inr ⟨hb6, rfl⟩
      · by_cases hb2 : c2 = ' ' ∧ cs2.head? = some ','
        · obtain ⟨hb21, hb22⟩ := hb2
          subst hb21
          cases cs2 with
          | nil => simp at hb22
          | cons c3 rest =>
            have hb23 : c3 = ',' := by simpa using hb22
            subst hb23
            rw [subSpaceGo_eq_sc]
            intro h
            exact Or.inl h
        · have hg1 : c2 = ',' → cs2.head? ≠ some ' ' := fun h1 h2 => hb ⟨h1, h2⟩
          have hg2 : c2 = ' ' → cs2.head? ≠ some ',' := fun h1 h2 => hb2 ⟨h1, h2⟩
          rw [subSpaceGo_eq_copy f c2 cs2 hg1 hg2]
          intro h
          exact Or.inl h

theorem subSpaceGo_good : ∀ fuel cs, List.Chain' noCC cs →
    List.Chain' goodPair (subSpaceGo fuel cs) := by
  intro fuel
  induction fuel with
  | zero => intro cs _; simp [subSpaceGo]
  | succ f ih =>
    intro cs hch
    cases cs with
    | nil => simp [subSpaceGo]
    | cons c2 cs2 =>
      by_cases hb : c2 = ',' ∧ cs2.head? = some ' '
      · obtain ⟨hb1, hb2⟩ := hb
        subst hb1
        cases cs2 with
        | nil => simp at hb2
        | cons c3 cs3 =>
          have hb3 : c3 = ' ' := by simpa using hb2
          subst hb3
          by_cases hb4 : cs3.head? = some ','
          · cases cs3 with
            | nil => simp at hb4
            | cons c4 rest =>
              have hb5 : c4 = ',' := by simpa using hb4
              subst hb5
              rw [subSpaceGo_eq_csc, List.chain'_cons']
              refine ⟨?_, ih rest hch.tail.tail.tail⟩
              intro y hy
              have hy2 := subSpaceGo_head f rest y (Option.mem_def.mp hy)
              have hpair : ∀ z ∈ rest.head?, noCC ',' z :=
                (List.chain'_cons'.mp hch.tail.tail).1
              refine ⟨fun hx => absurd hx.1 (by decide),
                fun hx => absurd hx.1 (by decide), ?_⟩
              intro hx
              rcases hy2 with h | h
              · exact hpair ',' (Option.mem_def.mpr (hx.2 ▸ h)) ⟨rfl, rfl⟩
              · exact hpair ',' (Option.mem_def.mpr h.2) ⟨rfl, rfl⟩
          · rw [subSpaceGo_eq_cs f cs3 hb4, List.chain'_cons']
            refine ⟨?_, ih cs3 hch.tail.tail⟩
            intro y hy
            have hy2 := subSpaceGo_head f cs3 y (Option.mem_def.mp hy)
            refine ⟨fun hx => absurd hx.1 (by decide),
              fun hx => absurd hx.1 (by decide), ?_⟩
            intro hx
            rcases hy2 with h | h
            · exact hb4 (hx.2 ▸ h)
            · exact hb4 h.2
      · by_cases hb2 : c2 = ' ' ∧ cs2.head? = some ','
        · obtain ⟨hb21, hb22⟩ := hb2
          subst hb21
          cases cs2 with
          | nil => simp at hb22
          | cons c3 rest =>
            have hb23 : c3 = ',' := by simpa using hb22
            subst hb23
            rw [subSpaceGo_eq_sc, List.chain'_cons']
            refine ⟨?_, ih rest hch.tail.tail⟩
            intro y hy
            have hy2 := subSpaceGo_head f rest y (Option.mem_def.mp hy)
            have hpair : ∀ z ∈ rest.head?, noCC ',' z :=
              (List.chain'_cons'.mp hch.tail).1
            refine ⟨fun hx => absurd hx.1 (by decide),
              fun hx => absurd hx.1 (by decide), ?_⟩
            intro hx
            rcases hy2 with h | h
            · exact hpair ',' (Option.mem_def.mpr (hx.2 ▸ h)) ⟨rfl, rfl⟩
            · exact hpair ',' (Option.mem_def.mpr h.2) ⟨rfl, rfl⟩
        · have hg1 : c2 = ',' → cs2.head? ≠ some ' ' := fun h1 h2 => hb ⟨h1, h2⟩
          have hg2 : c2 = ' ' → cs2.head? ≠ some ',' := fun h1 h2 => hb2 ⟨h1, h2⟩
          rw [subSpaceGo_eq_copy f c2 cs2 hg1 hg2, List.chain'_cons']
          refine ⟨?_, ih cs2 hch.tail⟩
          intro y hy
          have hy2 := subSpaceGo_head f cs2 y (Option.mem_def.mp hy)
          have hpair : ∀ z ∈ cs2.head?, noCC c2 z := (List.chain'_cons'.mp hch).1
          refine ⟨?_, ?_, ?_⟩
          · intro hx
            rcases hy2 with h | h
            · exact hpair ',' (Option.mem_def.mpr (hx.2 ▸ h)) ⟨hx.1, rfl⟩
            · exact absurd (h.1.symm.trans hx.2) (by decide)
          · intro hx
            rcases hy2 with h | h
            · exact hg1 hx.1 (hx.2 ▸ h)
            · exact hpair ',' (Option.mem_def.mpr h.2) ⟨hx.1, rfl⟩
          · intro hx
            rcases hy2 with h | h
            · exact hg2 hx.1 (hx.2 ▸ h)
            · exact absurd (h.1.symm.trans hx.2) (by decide)

end Aioinflux

namespace Aioinflux

/-! ## Splitting the joined output back into lines -/

theorem splitNl_no_newline : ∀ cs : List Char, '\n' ∉ cs → splitNl cs = [cs] := by
  intro cs
  induction cs with
  | nil => intro _; rfl
  | cons c cs2 ih =>
    intro h
    have hc : ¬ c = '\n' := fun he => h (by rw [he]; exact List.mem_cons_self _ _)
    rw [splitNl, if_neg hc, ih (fun hm => h (List.mem_cons_of_mem c hm))]

theorem splitNl_append : ∀ (xs rest : List Char), '\n' ∉ xs →
    splitNl (xs ++ '\n' :: rest) = xs :: splitNl rest := by
  intro xs
  induction xs with
  | nil =>
    intro rest _
    show splitNl ('\n' :: rest) = [] :: splitNl rest
    rw [splitNl, if_pos rfl]
  | cons x xs2 ih =>
    intro rest h
    have hx : ¬ x = '\n' := fun he => h (by rw [he]; exact List.mem_cons_self _ _)
    have ih2 := ih rest (fun hm => h (List.mem_cons_of_mem x hm))
    rw [List.cons_append, splitNl, if_neg hx, ih2]

theorem splitNl_joinSep : ∀ parts : List String, parts ≠ [] →
    (∀ p ∈ parts, '\n' ∉ p.data) →
    splitNl (joinSep "\n" parts).data = parts.map String.data := by
  intro parts
  induction parts with
  | nil => intro h _; exact absurd rfl h
  | cons x rest ih =>
    intro _ h
    cases rest with
    | nil =>
      show splitNl x.data = [x.data]
      exact splitNl_no_newline x.data (h x (by simp))
    | cons y rest2 =>
      have hd : (joinSep "\n" (x :: y :: rest2)).data
          = x.data ++ '\n' :: (joinSep "\n" (y :: rest2)).data := by
        show (x ++ "\n" ++ joinSep "\n" (y :: rest2)).data = _
        rw [String.data_append, String.data_append]
        simp
      rw [hd, splitNl_append x.data _ (h x (by simp)),
        ih (by simp) (fun p hp => h p (by simp [hp]))]
      rfl

theorem line_no_bad_pairs (l : List Char) (hch : List.Chain' goodPair l) :
    ¬ [',', ','] <:+: l ∧ ¬ [',', ' '] <:+: l ∧ ¬ [' ', ','] <:+: l := by
  refine ⟨fun h => ?_, fun h => ?_, fun h => ?_⟩
  · exact (pair_infix_chain l ',' ',' hch h).1 ⟨rfl, rfl⟩
  · exact (pair_infix_chain l ',' ' ' hch h).2.1 ⟨rfl, rfl⟩
  · exact (pair_infix_chain l ' ' ',' hch h).2.2 ⟨rfl, rfl⟩

theorem splitNl_joinSep_props (parts : List String) (hne : parts ≠ [])
    (hprops : ∀ p ∈ parts, List.Chain' goodPair p.data ∧ '\n' ∉ p.data) :
    (splitNl (joinSep "\n" parts).data).length = parts.length ∧
    ∀ l ∈ splitNl (joinSep "\n" parts).data,
      ¬ [',', ','] <:+: l ∧ ¬ [',', ' '] <:+: l ∧ ¬ [' ', ','] <:+: l := by
  have hsplit := splitNl_joinSep parts hne (fun p hp => (hprops p hp).2)
  rw [hsplit]
  constructor
  · simp
  · intro l hl
    rw [List.mem_map] at hl
    obtain ⟨p, hp, rfl⟩ := hl
    exact line_no_bad_pairs p.data (hprops p hp).1

theorem parse_df_parts_props (df : Frame) (m : String) (tc : List String)
    (et : List (String × PyVal)) (hclean : CleanFrame df m et) :
    ∀ p ∈ (df.rows.filter (fun r => ¬ isnullRow r)).map (renderRow df m tc et)
        ++ (df.rows.filter isnullRow).map
          (fun r => applyReplacements df (renderRow df m tc et r)),
      List.Chain' goodPair p.data ∧ '\n' ∉ p.data := by
  intro p hp
  rcases List.mem_append.mp hp with h1 | h1
  · rw [List.mem_map] at h1
    obtain ⟨r, hr, rfl⟩ := h1
    exact renderRow_props df m tc et r hclean (List.mem_of_mem_filter hr)
  · rw [List.mem_map] at h1
    obtain ⟨r, hr, rfl⟩ := h1
    have hrr := renderRow_props df m tc et r hclean (List.mem_of_mem_filter hr)
    constructor
    · exact subSpaceGo_good _ _ (collapseGo_noCC _ _)
    · intro hmem
      rcases subSpaceGo_mem _ _ _ hmem with h | h
      · exact absurd h (by decide)
      · exact hrr.2 (substGo_mem _ _ _ _ (collapseGo_mem _ _ _ h))

end Aioinflux

namespace Aioinflux

/-! ## C6: line count and delimiter well-formedness of the tabular encoder -/

/-- A frame with a temporal index and one fully non-null row whose object
column carries the text `x,,y`. -/
def cexFrame : Frame := ⟨true, [⟨"f", Dtype.object⟩], [⟨0, [FCell.v "x,,y"]⟩]⟩

/-- The newline-joined lines `parse_df` produces for `exFrame`. -/
def exLines : String :=
  "cpu,host=a load=1.5,note=\"hi\" 100\ncpu,host=b note=\"yo\" 200\ncpu,host=c load=2.5 300"

/-- **C6** (counterexample to the claim as stated): a table with a temporal
index and a single row with no null values encodes, without any
post-processing, to a line that contains the comma run `,,` — the run comes
from the object-column value `x,,y`, which `parse_df` interpolates verbatim
(string escaping is skipped, source lines 226-231), so "no produced line
contains a dangling delimiter" does not hold unconditionally. -/
theorem clean_row_line_contains_comma_run :
    cexFrame.isDatetimeIndex = true ∧
    (∀ r ∈ cexFrame.rows, isnullRow r = false) ∧
    parse_df cexFrame "m" [] [] = Except.ok "m f=\"x,,y\" 0" ∧
    [',', ','] <:+: ("m f=\"x,,y\" 0" : String).data := by
  refine ⟨rfl, by decide, by decide, by decide⟩

/-- **C6** (amended): for a clean frame — measurement, column names,
extra-tag keys and escaped values, and rendered cell texts free of commas,
spaces and newlines, with rectangular rows — whose index is temporal and
which has at least one row, `parse_df` succeeds and its output splits at
newlines into exactly N + M lines, where N counts the rows with no null
values and M the rows with at least one, and no line contains a dangling
delimiter: no `,,` comma run and no comma adjacent to a separating space
(`, ` or ` ,`) occurs in any produced line. -/
theorem parse_df_line_count_and_delimiters (df : Frame) (m : String)
    (tc : List String) (et : List (String × PyVal)) (out : String)
    (hclean : CleanFrame df m et) (hidx : df.isDatetimeIndex = true)
    (hne : df.rows ≠ []) (hout : parse_df df m tc et = Except.ok out) :
    (splitNl out.data).length
        = (df.rows.filter (fun r => ¬ isnullRow r)).length
          + (df.rows.filter isnullRow).length ∧
      ∀ l ∈ splitNl out.data,
        ¬ [',', ','] <:+: l ∧ ¬ [',', ' '] <:+: l ∧ ¬ [' ', ','] <:+: l := by
  unfold parse_df at hout
  rw [hidx] at hout
  rw [if_neg (show ¬ ¬ (true = true) by simp)] at hout
  by_cases hnull : df.rows.any isnullRow = true
  · rw [if_pos hnull] at hout
    injection hout with hEq
    rw [← hEq]
    have hPne : (df.rows.filter (fun r => ¬ isnullRow r)).map (renderRow df m tc et)
        ++ (df.rows.filter isnullRow).map
          (fun r => applyReplacements df (renderRow df m tc et r)) ≠ [] := by
      obtain ⟨r, hr⟩ := List.exists_mem_of_ne_nil _ hne
      intro hnil
      rcases List.append_eq_nil.mp hnil with ⟨h1, h2⟩
      rw [List.map_eq_nil_iff, List.filter_eq_nil_iff] at h1 h2
      by_cases hn : isnullRow r = true
      · exact h2 r hr hn
      · exact h1 r hr (by simpa using hn)
    have h2 := splitNl_joinSep_props _ hPne (parse_df_parts_props df m tc et hclean)
    rw [List.length_append, List.length_map, List.length_map] at h2
    exact h2
  · rw [if_neg hnull] at hout
    injection hout with hEq
    rw [← hEq]
    have hfalse : df.rows.any isnullRow = false := by
      rw [Bool.not_eq_true] at hnull
      exact hnull
    have hall := List.any_eq_false.mp hfalse
    have hfc : df.rows.filter (fun r => ¬ isnullRow r) = df.rows :=
      List.filter_eq_self.mpr (fun a ha => by simpa using hall a ha)
    have hfn : df.rows.filter isnullRow = [] :=
      List.filter_eq_nil_iff.mpr (fun a ha => by simpa using hall a ha)
    have hPne : df.rows.map (renderRow df m tc et) ≠ [] := by
      intro hnil
      rw [List.map_eq_nil_iff] at hnil
      exact hne hnil
    have hprops : ∀ p ∈ df.rows.map (renderRow df m tc et),
        List.Chain' goodPair p.data ∧ '\n' ∉ p.data := by
      intro p hp
      rw [List.mem_map] at hp
      obtain ⟨r, hr, rfl⟩ := hp
      exact renderRow_props df m tc et r hclean hr
    have h2 := splitNl_joinSep_props _ hPne hprops
    refine ⟨?_, h2.2⟩
    rw [hfc, hfn, h2.1]
    simp

/-- **C6** (witness): the amended theorem instantiated at the concrete frame
`exFrame` (one clean row, two has-null rows), producing three lines. -/
theorem parse_df_line_count_and_delimiters_witness :
    parse_df exFrame "cpu" ["host"] [] = Except.ok exLines ∧
    ((splitNl exLines.data).length
        = (exFrame.rows.filter (fun r => ¬ isnullRow r)).length
          + (exFrame.rows.filter isnullRow).length ∧
      ∀ l ∈ splitNl exLines.data,
        ¬ [',', ','] <:+: l ∧ ¬ [',', ' '] <:+: l ∧ ¬ [' ', ','] <:+: l) :=
  ⟨by decide, parse_df_line_count_and_delimiters exFrame "cpu" ["host"] [] exLines
    (by decide) rfl (by decide) (by decide)⟩

end Aioinflux
